import Mathlib

/-! # LibrarySystem: the catalog store of `src/main.cpp`

A shallow embedding of the classes `Book`, `Member` and `Library` and of the
operations `addBook`, `addMember`, `borrowBook`, `returnBook`, `saveData` and
`loadData`, followed by theorems about them.

Modelling conventions

* `int` is modelled by `Int`.  Signed overflow is undefined behaviour in C++, so
  the model describes the executions in which no counter is incremented past
  `INT_MAX`: the four places that add 1 to an `int` (`nextBookId++`,
  `nextMemberId++`, `nextBookId = id + 1`, `nextMemberId = mid + 1`) agree
  with the source exactly while the operand is below `INT_MAX`.  A theorem
  whose conclusion is the value of a counter or of a returned id states the
  bound that keeps the run inside that domain, unless the property itself is
  about ids read as unbounded integers.  Where the width matters for parsing
  (`std::stoi`) the bounds are explicit.
* `std::string` is modelled by `List Char`.
* `std::unordered_map<int, T>` is modelled by an association list.  `find`
  returns the first entry with the key, `emplace`/`insert` add an entry only
  when the key is absent, and writing through an iterator replaces the value
  of the entry `find` returned.  The iteration order of an unordered map is
  unspecified; the model iterates in list order.
* A C++ exception is modelled by returning the store as the throwing call left
  it, together with the exception.
-/

namespace LibrarySystem

/-! ## Exceptions -/

/-- The exceptions thrown by the code: one constructor per `throw` site message,
and the two exceptions of `std::stoi`. -/
inductive Exn where
  /-- Thrown as `std::runtime_error("Book already borrowed.")` -/
  | bookAlreadyBorrowed
  /-- Thrown as `std::runtime_error("Book was not borrowed.")` -/
  | bookWasNotBorrowed
  /-- Thrown as `std::runtime_error("Member did not borrow this book.")` -/
  | memberDidNotBorrow
  /-- Thrown as `std::runtime_error("Member not found.")` -/
  | memberNotFound
  /-- Thrown as `std::runtime_error("Book not found.")` -/
  | bookNotFound
  /-- Thrown as `std::runtime_error("Failed to open books file for writing.")` -/
  | openBooksForWriting
  /-- Thrown as `std::runtime_error("Failed to open members file for writing.")` -/
  | openMembersForWriting
  /-- Thrown as `std::invalid_argument`, by `std::stoi` -/
  | stoiInvalidArgument
  /-- Thrown as `std::out_of_range`, by `std::stoi` -/
  | stoiOutOfRange
  deriving DecidableEq, Repr

/-- The error kinds named by the specification. -/
inductive ErrorKind where
  | NotFound
  | AlreadyBorrowed
  | NotBorrowed
  | NotBorrowedByMember
  | ParseError
  | IOError
  deriving DecidableEq, Repr

/-- The specification's error kind of each exception of the code. -/
def Exn.kind : Exn → ErrorKind
  | .bookAlreadyBorrowed => .AlreadyBorrowed
  | .bookWasNotBorrowed => .NotBorrowed
  | .memberDidNotBorrow => .NotBorrowedByMember
  | .memberNotFound => .NotFound
  | .bookNotFound => .NotFound
  | .openBooksForWriting => .IOError
  | .openMembersForWriting => .IOError
  | .stoiInvalidArgument => .ParseError
  | .stoiOutOfRange => .ParseError

/-! ## `std::unordered_map<int, T>` -/

/-- Association-list model of `std::unordered_map<int, β>`. -/
abbrev Map (β : Type) := List (Int × β)

/-- Models `m.find(k)`: the value of the first entry with key `k`, `none` for `end()`. -/
def Map.find {β : Type} : Map β → Int → Option β
  | [], _ => none
  | (k', v) :: rest, k => if k' = k then some v else Map.find rest k

/-- Models `emplace` and `insert` of a key and a value: add the entry unless the key
is present. -/
def Map.emplace {β : Type} (m : Map β) (k : Int) (v : β) : Map β :=
  match Map.find m k with
  | some _ => m
  | none => m ++ [(k, v)]

/-- Writing `v` through the iterator returned by `m.find(k)`. -/
def Map.assign {β : Type} : Map β → Int → β → Map β
  | [], _, _ => []
  | (k', v') :: rest, k, v =>
    if k' = k then (k', v) :: rest else (k', v') :: Map.assign rest k v

/-! ## `class Book` -/

/-- The fields of `class Book`. -/
structure Book where
  id : Int
  title : List Char
  author : List Char
  isBorrowed : Bool
  deriving DecidableEq, Repr

/-- Models `Book(int id, const std::string &title, const std::string &author)` -/
def Book.new (id : Int) (title author : List Char) : Book :=
  { id := id, title := title, author := author, isBorrowed := false }

/-- Models `Book::borrowBook()` -/
def Book.borrowBook (b : Book) : Except Exn Book :=
  if b.isBorrowed then .error .bookAlreadyBorrowed
  else .ok { b with isBorrowed := true }

/-- Models `Book::returnBook()` -/
def Book.returnBook (b : Book) : Except Exn Book :=
  if !b.isBorrowed then .error .bookWasNotBorrowed
  else .ok { b with isBorrowed := false }

/-- Models `Book::setBorrowed(bool val)` -/
def Book.setBorrowed (b : Book) (val : Bool) : Book :=
  { b with isBorrowed := val }

/-! ## `class Member` -/

/-- The fields of `class Member`. -/
structure Member where
  memberId : Int
  name : List Char
  borrowedBooks : List Int
  deriving DecidableEq, Repr

/-- Models `Member(int memberId, const std::string &name)` -/
def Member.new (memberId : Int) (name : List Char) : Member :=
  { memberId := memberId, name := name, borrowedBooks := [] }

/-- Models `Member::borrowBook(int bookId)`: `push_back`. -/
def Member.borrowBook (m : Member) (bookId : Int) : Member :=
  { m with borrowedBooks := m.borrowedBooks ++ [bookId] }

/-- The loop of `Member::returnBook`: erase the first element equal to `bookId`;
`none` when the loop runs to `end()`. -/
def eraseFirst (bookId : Int) : List Int → Option (List Int)
  | [] => none
  | x :: xs =>
    if x = bookId then some xs
    else match eraseFirst bookId xs with
      | some ys => some (x :: ys)
      | none => none

/-- Models `Member::returnBook(int bookId)` -/
def Member.returnBook (m : Member) (bookId : Int) : Except Exn Member :=
  match eraseFirst bookId m.borrowedBooks with
  | some ys => .ok { m with borrowedBooks := ys }
  | none => .error .memberDidNotBorrow

/-! ## `class Library` -/

/-- The fields of `class Library`. -/
structure Library where
  books : Map Book
  members : Map Member
  nextBookId : Int
  nextMemberId : Int
  deriving DecidableEq, Repr

/-- Models `Library()` -/
def Library.new : Library :=
  { books := [], members := [], nextBookId := 1000, nextMemberId := 5000 }

/-- Models `Library::addBook`: the store afterwards and the returned id.  The
counter is an unbounded integer: this agrees with `int id = nextBookId++` while
`nextBookId < INT_MAX`; at `INT_MAX` the increment of the source overflows. -/
def Library.addBook (lib : Library) (title author : List Char) : Library × Int :=
  let id := lib.nextBookId
  ({ lib with
      nextBookId := lib.nextBookId + 1
      books := Map.emplace lib.books id (Book.new id title author) }, id)

/-- Models `Library::addMember`: the store afterwards and the returned id.  The
counter is an unbounded integer: this agrees with `int id = nextMemberId++`
while `nextMemberId < INT_MAX`; at `INT_MAX` the increment of the source
overflows. -/
def Library.addMember (lib : Library) (name : List Char) : Library × Int :=
  let id := lib.nextMemberId
  ({ lib with
      nextMemberId := lib.nextMemberId + 1
      members := Map.emplace lib.members id (Member.new id name) }, id)

/-- Models `Library::borrowBook`: the store afterwards and the exception thrown, if any. -/
def Library.borrowBook (lib : Library) (memberId bookId : Int) : Library × Option Exn :=
  match Map.find lib.members memberId with
  | none => (lib, some .memberNotFound)
  | some m =>
    match Map.find lib.books bookId with
    | none => (lib, some .bookNotFound)
    | some b =>
      match b.borrowBook with
      | .error e => (lib, some e)
      | .ok b' =>
        ({ lib with
            books := Map.assign lib.books bookId b'
            members := Map.assign lib.members memberId (m.borrowBook bookId) }, none)

/-- Models `Library::returnBook`: the store afterwards and the exception thrown, if any.
`bIt->second.returnBook()` has already written the book when
`mIt->second.returnBook(bookId)` throws. -/
def Library.returnBook (lib : Library) (memberId bookId : Int) : Library × Option Exn :=
  match Map.find lib.members memberId with
  | none => (lib, some .memberNotFound)
  | some m =>
    match Map.find lib.books bookId with
    | none => (lib, some .bookNotFound)
    | some b =>
      match b.returnBook with
      | .error e => (lib, some e)
      | .ok b' =>
        let lib1 := { lib with books := Map.assign lib.books bookId b' }
        match m.returnBook bookId with
        | .error e => (lib1, some e)
        | .ok m' => ({ lib1 with members := Map.assign lib1.members memberId m' }, none)

/-! ## Streams, `std::getline`, `std::stoi`, `operator<<` -/

/-- An input stream (`std::ifstream`, `std::stringstream`): the characters not
yet read and the two state bits the code depends on. -/
structure IStream where
  rest : List Char
  eofbit : Bool
  failbit : Bool
  deriving DecidableEq, Repr

/-- A stream freshly opened on a text. -/
def IStream.ofText (text : List Char) : IStream :=
  { rest := text, eofbit := false, failbit := false }

/-- The extraction loop of `std::getline`: the characters before the first
`delim`, and the input after that `delim` (`none` when the end of input was
reached first). -/
def readUntil (delim : Char) : List Char → List Char × Option (List Char)
  | [] => ([], none)
  | c :: cs =>
    if c = delim then ([], some cs)
    else ((c :: (readUntil delim cs).1), (readUntil delim cs).2)

/-- Models `std::getline(is, str, delim)`: the stream afterwards and the value of `str`.
On a stream that is not `good()` the sentry fails: `failbit` is set and `str`
is left alone.  Otherwise `str` is erased and characters are extracted up to
and including `delim`; reaching the end of input sets `eofbit`, and `failbit`
too when nothing was extracted. -/
def getline (is : IStream) (str : List Char) (delim : Char) : IStream × List Char :=
  if is.eofbit || is.failbit then ({ is with failbit := true }, str)
  else
    match readUntil delim is.rest with
    | (field, some r) => ({ is with rest := r }, field)
    | (field, none) => ({ rest := [], eofbit := true, failbit := field.isEmpty }, field)

/-- An upper bound on the number of `std::getline` calls a stream can take
up to and including the first one that fails. -/
def IStream.bound (is : IStream) : Nat :=
  if is.eofbit || is.failbit then 1 else is.rest.length + 1

/-- The function `isspace` in the "C" locale. -/
def isSpace (c : Char) : Bool :=
  c = ' ' || c = '\t' || c = '\n' || c = '\x0b' || c = '\x0c' || c = '\r'

/-- The value of a decimal digit string, most significant digit first. -/
def digitsValue (ds : List Char) : Nat :=
  ds.foldl (fun acc c => 10 * acc + (c.toNat - '0'.toNat)) 0

/-- The constant `INT_MIN` of a 32-bit `int`. -/
def INT_MIN : Int := -2147483648

/-- The constant `INT_MAX` of a 32-bit `int`. -/
def INT_MAX : Int := 2147483647

/-- Models `std::stoi(str)`: skip leading white space, read an optional sign and the
longest run of decimal digits, ignore what follows.  No digit:
`std::invalid_argument`; value outside `int`: `std::out_of_range`. -/
def stoi (str : List Char) : Except Exn Int :=
  let s1 := str.dropWhile isSpace
  let neg := s1.head? = some '-'
  let s2 := if s1.head? = some '-' || s1.head? = some '+' then s1.tail else s1
  let ds := s2.takeWhile Char.isDigit
  if ds.isEmpty then .error .stoiInvalidArgument
  else
    let v : Int := if neg then -(digitsValue ds : Int) else (digitsValue ds : Int)
    if v < INT_MIN || INT_MAX < v then .error .stoiOutOfRange
    else .ok v

/-- Stream insertion `os << n` for an `int`: decimal digits, preceded by `-` when negative. -/
def showInt : Int → List Char
  | .ofNat n => Nat.toDigits 10 n
  | .negSucc n => '-' :: Nat.toDigits 10 (n + 1)

/-! ## `Library::saveData` -/

/-- The fields the books loop of `saveData` writes for one book:
`id,title,author,flag`. -/
def bookFields (b : Book) : List Char :=
  showInt b.id ++ [','] ++ b.title ++ [','] ++ b.author ++ [',']
    ++ (if b.isBorrowed then ['1'] else ['0'])

/-- The characters one iteration of the books loop of `saveData` writes. -/
def bookLine (b : Book) : List Char :=
  bookFields b ++ ['\n']

/-- The loop `for (auto id : b) mf << "," << id`. -/
def borrowedFields : List Int → List Char
  | [] => []
  | id :: ids => [','] ++ showInt id ++ borrowedFields ids

/-- The fields the members loop of `saveData` writes for one member:
`memberId,name` and one `,id` per borrowed book. -/
def memberFields (m : Member) : List Char :=
  showInt m.memberId ++ [','] ++ m.name ++ borrowedFields m.borrowedBooks

/-- The characters one iteration of the members loop of `saveData` writes. -/
def memberLine (m : Member) : List Char :=
  memberFields m ++ ['\n']

/-- The books loop of `saveData`. -/
def writeBooks : Map Book → List Char
  | [] => []
  | kv :: rest => bookLine kv.2 ++ writeBooks rest

/-- The members loop of `saveData`. -/
def writeMembers : Map Member → List Char
  | [] => []
  | kv :: rest => memberLine kv.2 ++ writeMembers rest

/-- What a call of `saveData` leaves behind: the text written to each file
(`none` for a file that was not opened) and the exception thrown, if any. -/
structure Saved where
  booksText : Option (List Char)
  membersText : Option (List Char)
  exn : Option Exn
  deriving DecidableEq, Repr

/-- Models `Library::saveData`; `booksOpen` and `membersOpen` tell whether the
`std::ofstream` of each file `is_open()`. -/
def Library.saveData (lib : Library) (booksOpen membersOpen : Bool) : Saved :=
  if !booksOpen then
    { booksText := none, membersText := none, exn := some .openBooksForWriting }
  else if !membersOpen then
    { booksText := some (writeBooks lib.books), membersText := none,
      exn := some .openMembersForWriting }
  else
    { booksText := some (writeBooks lib.books),
      membersText := some (writeMembers lib.members), exn := none }

/-! ## `Library::loadData` -/

/-- The body of the books loop of `loadData` for a non-empty `line`.  The
update `nextBookId = id + 1` is on unbounded integers: it agrees with the
source while `id < INT_MAX`; for `id = INT_MAX`, which `std::stoi` accepts, the
addition of the source overflows. -/
def loadBookLine (lib : Library) (line : List Char) : Library × Option Exn :=
  let ss := IStream.ofText line
  let r1 := getline ss [] ','
  let r2 := getline r1.1 [] ','
  let r3 := getline r2.1 [] ','
  let r4 := getline r3.1 [] ','
  let idStr := r1.2
  let title := r2.2
  let author := r3.2
  let borrowedStr := r4.2
  match stoi idStr with
  | .error e => (lib, some e)
  | .ok id =>
    let isB := decide (borrowedStr = ['1'])
    let b := (Book.new id title author).setBorrowed isB
    ({ lib with
        books := Map.emplace lib.books id b
        nextBookId := if id ≥ lib.nextBookId then id + 1 else lib.nextBookId }, none)

/-- The loop `while (std::getline(bf, line))` over the books file.  The first
argument bounds the number of iterations; `loadData` passes more than the
loop can use. -/
def loadBooks : Nat → IStream → List Char → Library → Library × Option Exn
  | 0, _, _, lib => (lib, none)
  | fuel + 1, bf, line, lib =>
    let r := getline bf line '\n'
    if r.1.failbit then (lib, none)
    else if r.2.isEmpty then loadBooks fuel r.1 r.2 lib
    else
      match loadBookLine lib r.2 with
      | (lib1, some e) => (lib1, some e)
      | (lib1, none) => loadBooks fuel r.1 r.2 lib1

/-- The loop `while (std::getline(ss, bookIdStr, ','))` of the members loop. -/
def loadBorrowed : Nat → IStream → List Char → Member → Except Exn Member
  | 0, _, _, m => .ok m
  | fuel + 1, ss, bookIdStr, m =>
    let r := getline ss bookIdStr ','
    if r.1.failbit then .ok m
    else
      match stoi r.2 with
      | .error e => .error e
      | .ok bid => loadBorrowed fuel r.1 r.2 (m.borrowBook bid)

/-- The body of the members loop of `loadData` for a non-empty `line`.  The
update `nextMemberId = mid + 1` is on unbounded integers: it agrees with the
source while `mid < INT_MAX`; for `mid = INT_MAX` the addition of the source
overflows. -/
def loadMemberLine (lib : Library) (line : List Char) : Library × Option Exn :=
  let ss := IStream.ofText line
  let r1 := getline ss [] ','
  let r2 := getline r1.1 [] ','
  let memberIdStr := r1.2
  let name := r2.2
  match stoi memberIdStr with
  | .error e => (lib, some e)
  | .ok mid =>
    match loadBorrowed (line.length + 1) r2.1 [] (Member.new mid name) with
    | .error e => (lib, some e)
    | .ok m =>
      ({ lib with
          members := Map.emplace lib.members mid m
          nextMemberId := if mid ≥ lib.nextMemberId then mid + 1 else lib.nextMemberId },
        none)

/-- The loop `while (std::getline(mf, line))` over the members file. -/
def loadMembers : Nat → IStream → List Char → Library → Library × Option Exn
  | 0, _, _, lib => (lib, none)
  | fuel + 1, mf, line, lib =>
    let r := getline mf line '\n'
    if r.1.failbit then (lib, none)
    else if r.2.isEmpty then loadMembers fuel r.1 r.2 lib
    else
      match loadMemberLine lib r.2 with
      | (lib1, some e) => (lib1, some e)
      | (lib1, none) => loadMembers fuel r.1 r.2 lib1

/-- Models `Library::loadData`; a file is `none` when its `std::ifstream` does not
open and its text otherwise.  The store afterwards and the exception thrown,
if any. -/
def Library.loadData (lib : Library) (booksFile membersFile : Option (List Char)) :
    Library × Option Exn :=
  let lib0 : Library :=
    { lib with books := [], members := [], nextBookId := 1000, nextMemberId := 5000 }
  let afterBooks : Library × Option Exn :=
    match booksFile with
    | none => (lib0, none)
    | some text => loadBooks (text.length + 1) (IStream.ofText text) [] lib0
  match afterBooks with
  | (lib1, some e) => (lib1, some e)
  | (lib1, none) =>
    match membersFile with
    | none => (lib1, none)
    | some text => loadMembers (text.length + 1) (IStream.ofText text) [] lib1

/-! ## Sequences of calls -/

/-- A call of one of the four catalogue operations. -/
inductive Op where
  | addBook (title author : List Char)
  | addMember (name : List Char)
  | borrowBook (memberId bookId : Int)
  | returnBook (memberId bookId : Int)
  deriving DecidableEq, Repr

/-- What a call gave back to its caller. -/
inductive Ret where
  /-- the id returned by `addBook` or `addMember` -/
  | id (n : Int)
  /-- normal return of a `void` operation -/
  | done
  /-- the exception that left the call -/
  | threw (e : Exn)
  deriving DecidableEq, Repr

/-- What the caller of a `void` operation sees. -/
def Ret.ofExn : Option Exn → Ret
  | none => .done
  | some e => .threw e

/-- One call on a store: the store afterwards and what the caller got. -/
def Library.step (lib : Library) : Op → Library × Ret
  | .addBook t a => ((lib.addBook t a).1, .id (lib.addBook t a).2)
  | .addMember n => ((lib.addMember n).1, .id (lib.addMember n).2)
  | .borrowBook m b => ((lib.borrowBook m b).1, Ret.ofExn (lib.borrowBook m b).2)
  | .returnBook m b => ((lib.returnBook m b).1, Ret.ofExn (lib.returnBook m b).2)

/-- The store after a sequence of calls. -/
def Library.run (lib : Library) : List Op → Library
  | [] => lib
  | op :: ops => Library.run (lib.step op).1 ops

/-- The calls of a sequence paired with what each gave back. -/
def Library.trace (lib : Library) : List Op → List (Op × Ret)
  | [] => []
  | op :: ops => (op, (lib.step op).2) :: Library.trace (lib.step op).1 ops

/-- Stores reachable from a fresh `Library` by `addBook`, `addMember`,
`borrowBook` and `returnBook` calls, failed calls included. -/
def Reachable (s : Library) : Prop :=
  ∃ ops : List Op, Library.run Library.new ops = s

/-- The number of members whose borrowed list contains `bookId`. -/
def holders (lib : Library) (bookId : Int) : Nat :=
  (lib.members.filter (fun kv => decide (bookId ∈ kv.2.borrowedBooks))).length

/-- The relationship invariant: every book of the store is flagged borrowed
exactly when its id is in the borrowed list of exactly one member. -/
def RelationshipInvariant (lib : Library) : Prop :=
  ∀ kv ∈ lib.books, (kv.2.isBorrowed = true ↔ holders lib kv.1 = 1)

instance (lib : Library) : Decidable (RelationshipInvariant lib) := by
  unfold RelationshipInvariant; infer_instance

/-- Scenario: one book, two members, the first member borrows the book. -/
def loanOps : List Op :=
  [ .addBook "Dune".toList "Herbert".toList,
    .addMember "Alice".toList,
    .addMember "Bob".toList,
    .borrowBook 5000 1000 ]

/-- The store after `loanOps`: book 1000 is held by member 5000. -/
def loanState : Library := Library.run Library.new loanOps

/-- The scenario `loanOps` followed by a return of the book by the member who
does not hold it. -/
def strayReturnOps : List Op := loanOps ++ [ .returnBook 5001 1000 ]

/-- The store after `strayReturnOps`. -/
def strayReturnState : Library := Library.run Library.new strayReturnOps

/-- Scenario: one book and one member, nothing borrowed. -/
def shelfState : Library :=
  Library.run Library.new [ .addBook "Dune".toList "Herbert".toList, .addMember "Alice".toList ]

/-- Outcome of `returnBook` as the specification lists it: the first check
that applies, in the order member, book, flag, list. -/
def returnBookSpec (lib : Library) (memberId bookId : Int) : Option Exn :=
  match Map.find lib.members memberId with
  | none => some .memberNotFound
  | some m =>
    match Map.find lib.books bookId with
    | none => some .bookNotFound
    | some b =>
      if b.isBorrowed = false then some .bookWasNotBorrowed
      else if bookId ∉ m.borrowedBooks then some .memberDidNotBorrow
      else none

/-- Outcome of `borrowBook` as the specification lists it: the first check
that applies, in the order member, book, flag. -/
def borrowBookSpec (lib : Library) (memberId bookId : Int) : Option Exn :=
  match Map.find lib.members memberId with
  | none => some .memberNotFound
  | some _ =>
    match Map.find lib.books bookId with
    | none => some .bookNotFound
    | some b =>
      if b.isBorrowed = true then some .bookAlreadyBorrowed
      else none

/-- The ids the `addBook` calls of a trace returned, in call order. -/
def bookIdsReturned : List (Op × Ret) → List Int
  | [] => []
  | (.addBook _ _, .id n) :: rest => n :: bookIdsReturned rest
  | _ :: rest => bookIdsReturned rest

/-- The ids the `addMember` calls of a trace returned, in call order. -/
def memberIdsReturned : List (Op × Ret) → List Int
  | [] => []
  | (.addMember _, .id n) :: rest => n :: memberIdsReturned rest
  | _ :: rest => memberIdsReturned rest

/-- A call of a public operation that can change the store: one of the four
catalogue operations, or `loadData` on two files (`none`: the file does not
open). -/
inductive Call where
  | op (o : Op)
  | loadData (booksFile membersFile : Option (List Char))

/-- The store after one public call, whether it returned or threw. -/
def Library.call (lib : Library) : Call → Library
  | .op o => (lib.step o).1
  | .loadData booksFile membersFile => (lib.loadData booksFile membersFile).1

/-- The store after a sequence of public calls. -/
def Library.runCalls (lib : Library) : List Call → Library
  | [] => lib
  | c :: cs => Library.runCalls (lib.call c) cs

/-- Stores reachable from a fresh `Library` through the public operations:
`addBook`, `addMember`, `borrowBook`, `returnBook` and `loadData`, failed calls
included (`saveData` and the two print operations do not change the store). -/
def ReachablePublic (s : Library) : Prop :=
  ∃ calls : List Call, Library.runCalls Library.new calls = s

/-- Every record is stored under its own id. -/
def KeysMatch (lib : Library) : Prop :=
  (∀ kv ∈ lib.books, kv.2.id = kv.1) ∧ (∀ kv ∈ lib.members, kv.2.memberId = kv.1)

/-- No book title, book author or member name contains a comma or a newline. -/
def NoDelims (lib : Library) : Prop :=
  (∀ kv ∈ lib.books, ',' ∉ kv.2.title ∧ '\n' ∉ kv.2.title ∧
      ',' ∉ kv.2.author ∧ '\n' ∉ kv.2.author) ∧
  (∀ kv ∈ lib.members, ',' ∉ kv.2.name ∧ '\n' ∉ kv.2.name)

/-- Every integer stored in the records is a value of the 32-bit type `int`,
as it is in the C++ program. -/
def FitsInt (lib : Library) : Prop :=
  (∀ kv ∈ lib.books, INT_MIN ≤ kv.2.id ∧ kv.2.id ≤ INT_MAX) ∧
  (∀ kv ∈ lib.members, (INT_MIN ≤ kv.2.memberId ∧ kv.2.memberId ≤ INT_MAX) ∧
      ∀ b ∈ kv.2.borrowedBooks, INT_MIN ≤ b ∧ b ≤ INT_MAX)

/-! ## Lines and fields of a file text -/

/-- The pieces of a text between consecutive occurrences of `delim`: the lines
of a file text for the newline, the comma-separated fields of a line for the
comma.  A text without `delim` is its own single piece. -/
def splitFields (delim : Char) : List Char → List (List Char)
  | [] => [[]]
  | c :: cs =>
    if c = delim then [] :: splitFields delim cs
    else
      match splitFields delim cs with
      | f :: fs => (c :: f) :: fs
      | [] => [[c]]

/-- The books loop of `loadData` told line by line: blank lines are skipped,
every other line goes through the loop body, the first exception ends the
loop. -/
def loadBookLines : List (List Char) → Library → Library × Option Exn
  | [], lib => (lib, none)
  | line :: rest, lib =>
    if line.isEmpty then loadBookLines rest lib
    else
      match loadBookLine lib line with
      | (lib1, some e) => (lib1, some e)
      | (lib1, none) => loadBookLines rest lib1

/-- The members loop of `loadData` told line by line. -/
def loadMemberLines : List (List Char) → Library → Library × Option Exn
  | [], lib => (lib, none)
  | line :: rest, lib =>
    if line.isEmpty then loadMemberLines rest lib
    else
      match loadMemberLine lib line with
      | (lib1, some e) => (lib1, some e)
      | (lib1, none) => loadMemberLines rest lib1

/-- The lines of a file as `loadData` sees it: none when the file does not
open. -/
def fileLines : Option (List Char) → List (List Char)
  | none => []
  | some text => splitFields '\n' text

/-- The fields still to be read from a stream on the text of one line: on a
stream that is `good()` they are the pieces of the unread text; once `eofbit`
is set there is none. -/
def FieldsLeft (delim : Char) (ss : IStream) (fs : List (List Char)) : Prop :=
  (ss.eofbit = false ∧ ss.failbit = false ∧ splitFields delim ss.rest = fs) ∨
  (ss.eofbit = true ∧ fs = [])

/-- The fields a loop `while (std::getline(ss, str, delim))` reads when `fs`
are the fields left: all of them, except that an empty last field is not
read (the call that would read it finds the end of input and fails). -/
def readFields (fs : List (List Char)) : List (List Char) :=
  if fs.getLast? = some [] then fs.dropLast else fs

/-- The values `std::stoi` gives for the fields in turn, or its first
exception. -/
def parseIds : List (List Char) → Except Exn (List Int)
  | [] => .ok []
  | f :: fs =>
    match stoi f with
    | .error e => .error e
    | .ok v =>
      match parseIds fs with
      | .error e => .error e
      | .ok vs => .ok (v :: vs)

/-- The text whose lines are `ls`, each ended by a newline. -/
def joinLines : List (List Char) → List Char
  | [] => []
  | l :: ls => l ++ '\n' :: joinLines ls

/-! ## Invariants of the id counters -/

/-- Both counters are at or above their seed and strictly above every id
under which a record is stored. -/
def CountersAhead (lib : Library) : Prop :=
  1000 ≤ lib.nextBookId ∧ (∀ kv ∈ lib.books, kv.1 < lib.nextBookId) ∧
  5000 ≤ lib.nextMemberId ∧ (∀ kv ∈ lib.members, kv.1 < lib.nextMemberId)

/-- The store after the failed return of `strayReturnOps` and a second
`borrowBook(5000, 1000)`: member 5000 lists book 1000 twice. -/
def doubleLoanState : Library := (strayReturnState.borrowBook 5000 1000).1

/-! ## File texts used as examples -/

/-- A books file with the books 1000 and 1005. -/
def twoBooksText : List Char := "1000,Dune,Herbert,1\n1005,Emma,Austen,0\n".toList

/-- The store `loadData` builds from `twoBooksText` alone. -/
def twoBooksState : Library :=
  { books := [(1000, { id := 1000, title := "Dune".toList, author := "Herbert".toList,
                       isBorrowed := true }),
              (1005, { id := 1005, title := "Emma".toList, author := "Austen".toList,
                       isBorrowed := false })],
    members := [], nextBookId := 1006, nextMemberId := 5000 }

/-- A books file whose only line has two fields. -/
def shortRowText : List Char := "1000,Dune".toList

/-- A books file whose id field is an integer followed by letters. -/
def trailingJunkBooksText : List Char := "12abc,Dune,Herbert,0".toList

/-- A members file with an id followed by letters, a borrowed id followed by
letters, and an empty last field. -/
def trailingJunkMembersText : List Char := "5000x,Alice,1000abc,".toList

/-- A books file whose id field has no digit. -/
def badIdBooksText : List Char := "abc,Dune,Herbert,0".toList

/-- The members line of the specification's example. -/
def aliceRowText : List Char := "5000,Alice,1000,1002".toList

/-- The member the line `aliceRowText` describes. -/
def aliceMember : Member :=
  { memberId := 5000, name := "Alice".toList, borrowedBooks := [1000, 1002] }

/-- A members file whose only line has a borrowed id outside `int`. -/
def overflowMemberText : List Char := "5000,Alice,99999999999".toList

/-- A members file in which a line without digits precedes `aliceRowText`. -/
def badFirstLineMembersText : List Char := "abc\n5000,Alice,1000,1002".toList

/-- A members file whose second line has no digit in its id field. -/
def badSecondLineMembersText : List Char := "5000,Alice,1000\nabc\n5001,Bob".toList

/-- The store left by `loadData` on `twoBooksText` and
`badSecondLineMembersText`: both books and the member of the first line. -/
def partialLoadState : Library :=
  { twoBooksState with
      members := [(5000, { memberId := 5000, name := "Alice".toList,
                           borrowedBooks := [1000] })]
      nextMemberId := 5001 }

/-! ## Counting the calls that move a counter -/

/-- The number of `addBook` calls of a sequence. -/
def countAddBook : List Op → Nat
  | [] => 0
  | .addBook _ _ :: rest => countAddBook rest + 1
  | _ :: rest => countAddBook rest

/-- The number of `addMember` calls of a sequence. -/
def countAddMember : List Op → Nat
  | [] => 0
  | .addMember _ :: rest => countAddMember rest + 1
  | _ :: rest => countAddMember rest

/-- A sequence of 2147482649 `addBook` calls: one more than the number of
values of `int` from 1000 to `INT_MAX`. -/
def manyAddBooks : List Op := List.replicate 2147482649 (Op.addBook [] [])

theorem Map.find_assign {β : Type} (xs : Map β) (k k' : Int) (v : β) :
    Map.find (Map.assign xs k v) k' =
      if k = k' then (Map.find xs k').map (fun _ => v) else Map.find xs k' := by
  induction xs with
  | nil => simp [Map.assign, Map.find]
  | cons kv rest ih =>
    obtain ⟨k0, v0⟩ := kv
    by_cases h0 : k0 = k
    · subst h0
      by_cases h1 : k0 = k' <;> simp [Map.assign, Map.find, h1]
    · by_cases h1 : k0 = k'
      · subst h1
        have : ¬ k = k0 := fun h => h0 h.symm
        simp [Map.assign, Map.find, h0, this]
      · simp [Map.assign, Map.find, h0, h1, ih]

theorem Map.find_append {β : Type} (xs ys : Map β) (k : Int) :
    Map.find (xs ++ ys) k = (Map.find xs k).orElse (fun _ => Map.find ys k) := by
  induction xs with
  | nil => simp [Map.find]
  | cons kv rest ih =>
    obtain ⟨k0, v0⟩ := kv
    by_cases h : k0 = k <;> simp [Map.find, h, ih]

theorem Map.find_emplace {β : Type} (xs : Map β) (k k' : Int) (v : β) :
    Map.find (Map.emplace xs k v) k' =
      (Map.find xs k').orElse (fun _ => if k = k' then some v else none) := by
  unfold Map.emplace
  cases h : Map.find xs k with
  | some x =>
    by_cases hk : k = k'
    · subst hk; simp [h]
    · cases h' : Map.find xs k' <;> simp [hk]
  | none =>
    simp [Map.find_append, Map.find]

theorem Map.mem_of_find {β : Type} (xs : Map β) (k : Int) (v : β)
    (h : Map.find xs k = some v) : (k, v) ∈ xs := by
  induction xs with
  | nil => simp [Map.find] at h
  | cons kv rest ih =>
    obtain ⟨k0, v0⟩ := kv
    by_cases h0 : k0 = k
    · subst h0; simp [Map.find] at h; simp [h]
    · simp [Map.find, h0] at h; simp [ih h]

/-! ## `eraseFirst` -/

theorem eraseFirst_isSome (b : Int) (xs : List Int) :
    (eraseFirst b xs).isSome = true ↔ b ∈ xs := by
  induction xs with
  | nil => simp [eraseFirst]
  | cons x rest ih =>
    by_cases h : x = b
    · subst h; simp [eraseFirst]
    · have hb : ¬ b = x := fun e => h e.symm
      cases he : eraseFirst b rest with
      | none => simp [eraseFirst, h, he, hb] at ih ⊢; exact ih
      | some ys => simp [eraseFirst, h, he, hb] at ih ⊢; exact ih

theorem eraseFirst_subset (b : Int) (xs ys : List Int) (h : eraseFirst b xs = some ys) :
    ∀ x ∈ ys, x ∈ xs := by
  induction xs generalizing ys with
  | nil => simp [eraseFirst] at h
  | cons x rest ih =>
    by_cases hx : x = b
    · simp [eraseFirst, hx] at h
      subst h
      intro y hy
      exact List.mem_cons_of_mem _ hy
    · cases he : eraseFirst b rest with
      | none => simp [eraseFirst, hx, he] at h
      | some zs =>
        simp [eraseFirst, hx, he] at h
        subst h
        intro y hy
        rcases List.mem_cons.mp hy with rfl | hy
        · exact List.mem_cons_self _ _
        · exact List.mem_cons_of_mem _ (ih zs he y hy)

/-! ## Decimal rendering and `std::stoi` -/

theorem digitChar_isDigit : ∀ d, d < 10 → (Nat.digitChar d).isDigit = true := by decide

theorem digitChar_value : ∀ d, d < 10 → (Nat.digitChar d).toNat - '0'.toNat = d := by decide

theorem toDigitsCore_spec (fuel : Nat) :
    ∀ (n : Nat) (ds : List Char), n < fuel →
      ∃ pre, Nat.toDigitsCore 10 fuel n ds = pre ++ ds ∧ pre ≠ [] ∧
        (∀ c ∈ pre, c.isDigit = true) ∧ digitsValue pre = n := by
  induction fuel with
  | zero => intro n ds h; omega
  | succ fuel ih =>
    intro n ds h
    have hd : n % 10 < 10 := Nat.mod_lt _ (by decide)
    by_cases h0 : n / 10 = 0
    · refine ⟨[Nat.digitChar (n % 10)], by simp [Nat.toDigitsCore, h0], by simp, ?_, ?_⟩
      · intro c hc
        simp only [List.mem_singleton] at hc
        subst hc
        exact digitChar_isDigit _ hd
      · simp only [digitsValue, List.foldl]
        rw [digitChar_value _ hd]
        omega
    · obtain ⟨pre, hpre, _, hall, hval⟩ :=
        ih (n / 10) (Nat.digitChar (n % 10) :: ds) (by omega)
      refine ⟨pre ++ [Nat.digitChar (n % 10)], by simp [Nat.toDigitsCore, h0, hpre], by simp, ?_, ?_⟩
      · intro c hc
        rcases List.mem_append.mp hc with hc | hc
        · exact hall c hc
        · simp only [List.mem_singleton] at hc
          subst hc
          exact digitChar_isDigit _ hd
      · simp only [digitsValue, List.foldl_append, List.foldl] at hval ⊢
        rw [hval, digitChar_value _ hd]
        omega

theorem toDigits_spec (n : Nat) :
    Nat.toDigits 10 n ≠ [] ∧ (∀ c ∈ Nat.toDigits 10 n, c.isDigit = true) ∧
      digitsValue (Nat.toDigits 10 n) = n := by
  obtain ⟨pre, hpre, hne, hall, hval⟩ := toDigitsCore_spec (n + 1) n [] (by omega)
  simp only [List.append_nil] at hpre
  unfold Nat.toDigits
  rw [hpre]
  exact ⟨hne, hall, hval⟩

theorem isDigit_not_space (c : Char) (h : c.isDigit = true) :
    isSpace c = false ∧ c ≠ '-' ∧ c ≠ '+' ∧ c ≠ ',' ∧ c ≠ '\n' := by
  refine ⟨?_, ?_, ?_, ?_, ?_⟩
  · simp only [isSpace, Bool.or_eq_false_iff, decide_eq_false_iff_not]
    refine ⟨⟨⟨⟨⟨?_, ?_⟩, ?_⟩, ?_⟩, ?_⟩, ?_⟩ <;>
      (intro e; subst e; exact absurd h (by decide))
  all_goals (intro e; subst e; exact absurd h (by decide))

theorem takeWhile_all {α : Type} (p : α → Bool) (xs : List α) (h : ∀ x ∈ xs, p x = true) :
    xs.takeWhile p = xs := by
  induction xs with
  | nil => rfl
  | cons x rest ih =>
    have hx := h x (List.mem_cons_self _ _)
    simp only [List.takeWhile, hx]
    rw [ih (fun y hy => h y (List.mem_cons_of_mem _ hy))]

theorem stoi_digits (ds : List Char) (hne : ds ≠ []) (hall : ∀ c ∈ ds, c.isDigit = true)
    (hr : (digitsValue ds : Int) ≤ INT_MAX) :
    stoi ds = .ok (digitsValue ds : Int) := by
  cases ds with
  | nil => exact absurd rfl hne
  | cons c rest =>
    have hc := isDigit_not_space c (hall c (List.mem_cons_self _ _))
    have htw := takeWhile_all Char.isDigit (c :: rest) hall
    have h1 : ¬ ((digitsValue (c :: rest) : Int) < INT_MIN) := by
      have : (0 : Int) ≤ (digitsValue (c :: rest) : Int) := Int.natCast_nonneg _
      simp only [INT_MIN]; omega
    have h2 : ¬ (INT_MAX < (digitsValue (c :: rest) : Int)) := by omega
    simp only [stoi, List.dropWhile, hc.1, List.head?, Option.some.injEq, hc.2.1, hc.2.2.1,
      decide_False, Bool.or_self, Bool.false_eq_true, if_false, htw, List.isEmpty_cons,
      h1, h2]

theorem stoi_neg_digits (ds : List Char) (hne : ds ≠ []) (hall : ∀ c ∈ ds, c.isDigit = true)
    (hr : INT_MIN ≤ -(digitsValue ds : Int)) :
    stoi ('-' :: ds) = .ok (-(digitsValue ds : Int)) := by
  have htw := takeWhile_all Char.isDigit ds hall
  have hsp : isSpace '-' = false := by decide
  have hne' : ds.isEmpty = false := by cases ds <;> simp_all
  have h1 : ¬ (-(digitsValue ds : Int) < INT_MIN) := by omega
  have h2 : ¬ (INT_MAX < -(digitsValue ds : Int)) := by
    have : (0 : Int) ≤ (digitsValue ds : Int) := Int.natCast_nonneg _
    simp only [INT_MAX]; omega
  simp only [stoi, List.dropWhile, hsp, List.head?, List.tail, decide_True, Bool.true_or,
    if_true, htw, hne', Bool.false_eq_true, if_false, h1, h2, Bool.or_self, decide_False]

theorem stoi_showInt (v : Int) (h1 : INT_MIN ≤ v) (h2 : v ≤ INT_MAX) :
    stoi (showInt v) = .ok v := by
  cases v with
  | ofNat n =>
    obtain ⟨hne, hall, hval⟩ := toDigits_spec n
    have := stoi_digits _ hne hall (by rw [hval]; exact h2)
    rw [hval] at this
    exact this
  | negSucc n =>
    obtain ⟨hne, hall, hval⟩ := toDigits_spec (n + 1)
    have := stoi_neg_digits _ hne hall (by rw [hval]; simpa [Int.negSucc_eq] using h1)
    rw [hval] at this
    simpa [showInt, Int.negSucc_eq] using this

theorem showInt_chars (v : Int) : ∀ c ∈ showInt v, c ≠ ',' ∧ c ≠ '\n' := by
  intro c hc
  cases v with
  | ofNat n =>
    have := isDigit_not_space c ((toDigits_spec n).2.1 c hc)
    exact ⟨this.2.2.2.1, this.2.2.2.2⟩
  | negSucc n =>
    rcases List.mem_cons.mp hc with rfl | hc
    · exact ⟨by decide, by decide⟩
    · have := isDigit_not_space c ((toDigits_spec (n + 1)).2.1 c hc)
      exact ⟨this.2.2.2.1, this.2.2.2.2⟩

theorem showInt_ne_nil (v : Int) : showInt v ≠ [] := by
  cases v with
  | ofNat n => exact (toDigits_spec n).1
  | negSucc n => simp [showInt]

/-! ## Reading back what `saveData` wrote -/

theorem readUntil_append (d : Char) (f r : List Char) (h : d ∉ f) :
    readUntil d (f ++ d :: r) = (f, some r) := by
  induction f with
  | nil => simp [readUntil]
  | cons c rest ih =>
    have hc : ¬ c = d := fun e => h (e ▸ List.mem_cons_self _ _)
    have hr : d ∉ rest := fun e => h (List.mem_cons_of_mem _ e)
    simp [readUntil, hc, ih hr]

theorem readUntil_all (d : Char) (f : List Char) (h : d ∉ f) :
    readUntil d f = (f, none) := by
  induction f with
  | nil => simp [readUntil]
  | cons c rest ih =>
    have hc : ¬ c = d := fun e => h (e ▸ List.mem_cons_self _ _)
    have hr : d ∉ rest := fun e => h (List.mem_cons_of_mem _ e)
    simp [readUntil, hc, ih hr]

theorem getline_field (d : Char) (f r str : List Char) (h : d ∉ f) :
    getline { rest := f ++ d :: r, eofbit := false, failbit := false } str d =
      ({ rest := r, eofbit := false, failbit := false }, f) := by
  simp [getline, readUntil_append d f r h]

theorem getline_last (d : Char) (f str : List Char) (h : d ∉ f) :
    getline { rest := f, eofbit := false, failbit := false } str d =
      ({ rest := [], eofbit := true, failbit := f.isEmpty }, f) := by
  simp [getline, readUntil_all d f h]

theorem getline_at_eof (r str : List Char) (fb : Bool) (d : Char) :
    getline { rest := r, eofbit := true, failbit := fb } str d =
      ({ rest := r, eofbit := true, failbit := true }, str) := by
  simp [getline]

theorem bookFields_eq (b : Book) :
    bookFields b =
      showInt b.id ++ ',' :: (b.title ++ ',' :: (b.author ++
        ',' :: [if b.isBorrowed then '1' else '0'])) := by
  cases hb : b.isBorrowed <;> simp [bookFields, hb]

theorem loadBookLine_bookFields (lib : Library) (b : Book)
    (ht : ',' ∉ b.title) (ha : ',' ∉ b.author)
    (h1 : INT_MIN ≤ b.id) (h2 : b.id ≤ INT_MAX) :
    loadBookLine lib (bookFields b) =
      ({ lib with
          books := Map.emplace lib.books b.id b
          nextBookId := if b.id ≥ lib.nextBookId then b.id + 1 else lib.nextBookId }, none) := by
  have hi : ',' ∉ showInt b.id := fun h => (showInt_chars b.id _ h).1 rfl
  have hf : ',' ∉ [if b.isBorrowed then '1' else '0'] := by
    cases b.isBorrowed <;> decide
  have hflag : decide ([if b.isBorrowed then '1' else '0'] = ['1']) = b.isBorrowed := by
    cases b.isBorrowed <;> decide
  simp only [bookFields_eq, loadBookLine, IStream.ofText, getline_field _ _ _ _ hi,
    getline_field _ _ _ _ ht, getline_field _ _ _ _ ha, getline_last _ _ _ hf,
    stoi_showInt b.id h1 h2, hflag, Book.new, Book.setBorrowed]

theorem bookFields_no_newline (b : Book) (ht : '\n' ∉ b.title) (ha : '\n' ∉ b.author) :
    '\n' ∉ bookFields b := by
  have hi : '\n' ∉ showInt b.id := fun h => (showInt_chars b.id _ h).2 rfl
  rw [bookFields_eq]
  simp only [List.mem_append, List.mem_cons, not_or]
  refine ⟨hi, by decide, ht, by decide, ha, by decide, ?_, by simp⟩
  cases b.isBorrowed <;> decide

theorem bookFields_isEmpty (b : Book) : (bookFields b).isEmpty = false := by
  rw [bookFields_eq]
  cases hs : showInt b.id with
  | nil => exact absurd hs (showInt_ne_nil _)
  | cons c cs => rfl

theorem loadBooks_step (n : Nat) (fields r line : List Char) (lib lib1 : Library)
    (hnl : '\n' ∉ fields) (hne : fields.isEmpty = false)
    (hline : loadBookLine lib fields = (lib1, none)) :
    loadBooks (n + 1) { rest := fields ++ '\n' :: r, eofbit := false, failbit := false } line lib
      = loadBooks n { rest := r, eofbit := false, failbit := false } fields lib1 := by
  simp [loadBooks, getline_field _ _ _ _ hnl, hne, hline]

theorem loadBooks_end (n : Nat) (line : List Char) (lib : Library) :
    loadBooks (n + 1) { rest := [], eofbit := false, failbit := false } line lib = (lib, none) := by
  simp [loadBooks, getline, readUntil]

theorem writeBooks_cons (k : Int) (b : Book) (rest : Map Book) :
    writeBooks ((k, b) :: rest) = bookFields b ++ '\n' :: writeBooks rest := by
  simp [writeBooks, bookLine]

theorem loadBooks_writeBooks (bs : Map Book) :
    ∀ (fuel : Nat) (line : List Char) (lib : Library),
      bs.length + 1 ≤ fuel →
      (∀ kv ∈ bs, kv.2.id = kv.1) →
      (∀ kv ∈ bs, ',' ∉ kv.2.title ∧ '\n' ∉ kv.2.title ∧
        ',' ∉ kv.2.author ∧ '\n' ∉ kv.2.author) →
      (∀ kv ∈ bs, INT_MIN ≤ kv.2.id ∧ kv.2.id ≤ INT_MAX) →
      ∃ lib', loadBooks fuel (IStream.ofText (writeBooks bs)) line lib = (lib', none) ∧
        lib'.members = lib.members ∧ lib'.nextMemberId = lib.nextMemberId ∧
        ∀ id, Map.find lib'.books id =
          (Map.find lib.books id).orElse (fun _ => Map.find bs id) := by
  induction bs with
  | nil =>
    intro fuel line lib hfuel _ _ _
    obtain ⟨n, rfl⟩ : ∃ n, fuel = n + 1 := ⟨fuel - 1, by omega⟩
    refine ⟨lib, loadBooks_end n line lib, rfl, rfl, ?_⟩
    intro id
    cases Map.find lib.books id <;> simp [Map.find]
  | cons kv rest ih =>
    intro fuel line lib hfuel hkey hdel hfit
    obtain ⟨n, rfl⟩ : ∃ n, fuel = n + 1 := ⟨fuel - 1, by omega⟩
    obtain ⟨k, b⟩ := kv
    have hk : b.id = k := hkey (k, b) (List.mem_cons_self _ _)
    obtain ⟨ht, htn, ha, han⟩ := hdel (k, b) (List.mem_cons_self _ _)
    obtain ⟨hlo, hhi⟩ := hfit (k, b) (List.mem_cons_self _ _)
    obtain ⟨lib', hload, hmem, hnext, hfind⟩ := ih n (bookFields b)
      { lib with
          books := Map.emplace lib.books b.id b
          nextBookId := if b.id ≥ lib.nextBookId then b.id + 1 else lib.nextBookId }
      (by simp only [List.length_cons] at hfuel; omega)
      (fun kv h => hkey kv (List.mem_cons_of_mem _ h))
      (fun kv h => hdel kv (List.mem_cons_of_mem _ h))
      (fun kv h => hfit kv (List.mem_cons_of_mem _ h))
    refine ⟨lib', ?_, hmem, hnext, ?_⟩
    · rw [writeBooks_cons]
      exact (loadBooks_step n (bookFields b) (writeBooks rest) line lib _
        (bookFields_no_newline b htn han) (bookFields_isEmpty b)
        (loadBookLine_bookFields lib b ht ha hlo hhi)).trans hload
    · intro id
      rw [hfind id]
      simp only [Map.find_emplace, Map.find, hk]
      cases Map.find lib.books id <;> by_cases hkid : k = id <;> simp [hkid]

theorem showInt_isEmpty (v : Int) : (showInt v).isEmpty = false := by
  cases hs : showInt v with
  | nil => exact absurd hs (showInt_ne_nil _)
  | cons c cs => rfl

theorem showInt_no_comma (v : Int) : ',' ∉ showInt v :=
  fun h => (showInt_chars v _ h).1 rfl

theorem showInt_no_newline (v : Int) : '\n' ∉ showInt v :=
  fun h => (showInt_chars v _ h).2 rfl

theorem loadBorrowed_at_eof (n : Nat) (r str : List Char) (fb : Bool) (m : Member) :
    loadBorrowed (n + 1) { rest := r, eofbit := true, failbit := fb } str m = .ok m := by
  simp [loadBorrowed, getline_at_eof]

theorem loadBorrowed_fields (bs : List Int) :
    ∀ (b : Int) (m : Member) (fuel : Nat) (str : List Char),
      bs.length + 2 ≤ fuel →
      (∀ x ∈ b :: bs, INT_MIN ≤ x ∧ x ≤ INT_MAX) →
      loadBorrowed fuel
          { rest := showInt b ++ borrowedFields bs, eofbit := false, failbit := false } str m
        = .ok { m with borrowedBooks := m.borrowedBooks ++ b :: bs } := by
  induction bs with
  | nil =>
    intro b m fuel str hfuel hfit
    obtain ⟨n, rfl⟩ : ∃ n, fuel = n + 2 := ⟨fuel - 2, by simp at hfuel; omega⟩
    obtain ⟨hlo, hhi⟩ := hfit b (List.mem_cons_self _ _)
    simp only [borrowedFields, List.append_nil, loadBorrowed,
      getline_last _ _ _ (showInt_no_comma b), showInt_isEmpty, stoi_showInt b hlo hhi,
      getline_at_eof, Member.borrowBook]
    simp
  | cons b2 rest ih =>
    intro b m fuel str hfuel hfit
    obtain ⟨n, rfl⟩ : ∃ n, fuel = n + 1 := ⟨fuel - 1, by omega⟩
    obtain ⟨hlo, hhi⟩ := hfit b (List.mem_cons_self _ _)
    have hw : showInt b ++ borrowedFields (b2 :: rest)
        = showInt b ++ ',' :: (showInt b2 ++ borrowedFields rest) := by
      simp [borrowedFields]
    rw [hw]
    simp only [loadBorrowed, getline_field _ _ _ _ (showInt_no_comma b),
      stoi_showInt b hlo hhi]
    rw [ih b2 (m.borrowBook b) n (showInt b)
      (by simp only [List.length_cons] at hfuel; omega)
      (fun x hx => hfit x (List.mem_cons_of_mem _ hx))]
    simp [Member.borrowBook]

theorem borrowedFields_length (bs : List Int) : bs.length ≤ (borrowedFields bs).length := by
  induction bs with
  | nil => simp [borrowedFields]
  | cons b rest ih => simp only [borrowedFields, List.length_append, List.length_cons, List.length_nil]; omega

theorem borrowedFields_no_newline (bs : List Int) : '\n' ∉ borrowedFields bs := by
  induction bs with
  | nil => simp [borrowedFields]
  | cons b rest ih =>
    simp only [borrowedFields, List.mem_append, List.mem_singleton, not_or]
    exact ⟨⟨by decide, showInt_no_newline b⟩, ih⟩

theorem loadMemberLine_memberFields (lib : Library) (m : Member)
    (hn : ',' ∉ m.name)
    (hid : INT_MIN ≤ m.memberId ∧ m.memberId ≤ INT_MAX)
    (hbs : ∀ b ∈ m.borrowedBooks, INT_MIN ≤ b ∧ b ≤ INT_MAX) :
    loadMemberLine lib (memberFields m) =
      ({ lib with
          members := Map.emplace lib.members m.memberId m
          nextMemberId :=
            if m.memberId ≥ lib.nextMemberId then m.memberId + 1 else lib.nextMemberId },
        none) := by
  obtain ⟨mid, name, bs⟩ := m
  simp only at hn hid hbs
  have hlen : bs.length ≤ (memberFields ⟨mid, name, bs⟩).length := by
    have := borrowedFields_length bs
    simp only [memberFields, List.length_append]
    omega
  cases bs with
  | nil =>
    have hw : memberFields ⟨mid, name, []⟩ = showInt mid ++ ',' :: name := by
      simp [memberFields, borrowedFields]
    rw [hw]
    simp only [loadMemberLine, IStream.ofText, getline_field _ _ _ _ (showInt_no_comma mid),
      getline_last _ _ _ hn, stoi_showInt mid hid.1 hid.2, loadBorrowed_at_eof, Member.new]
  | cons b rest =>
    have hw : memberFields ⟨mid, name, b :: rest⟩
        = showInt mid ++ ',' :: (name ++ ',' :: (showInt b ++ borrowedFields rest)) := by
      simp [memberFields, borrowedFields]
    rw [hw] at hlen ⊢
    simp only [loadMemberLine, IStream.ofText, getline_field _ _ _ _ (showInt_no_comma mid),
      getline_field _ _ _ _ hn, stoi_showInt mid hid.1 hid.2]
    rw [loadBorrowed_fields rest b (Member.new mid name) _ []
      (by simp only [List.length_cons] at hlen; omega) hbs]
    simp [Member.new]

theorem memberFields_no_newline (m : Member) (hn : '\n' ∉ m.name) : '\n' ∉ memberFields m := by
  simp only [memberFields, List.mem_append, List.mem_singleton, not_or]
  exact ⟨⟨⟨showInt_no_newline _, by decide⟩, hn⟩, borrowedFields_no_newline _⟩

theorem memberFields_isEmpty (m : Member) : (memberFields m).isEmpty = false := by
  cases hs : showInt m.memberId with
  | nil => exact absurd hs (showInt_ne_nil _)
  | cons c cs => simp [memberFields, hs]

theorem loadMembers_step (n : Nat) (fields r line : List Char) (lib lib1 : Library)
    (hnl : '\n' ∉ fields) (hne : fields.isEmpty = false)
    (hline : loadMemberLine lib fields = (lib1, none)) :
    loadMembers (n + 1) { rest := fields ++ '\n' :: r, eofbit := false, failbit := false } line lib
      = loadMembers n { rest := r, eofbit := false, failbit := false } fields lib1 := by
  simp [loadMembers, getline_field _ _ _ _ hnl, hne, hline]

theorem loadMembers_end (n : Nat) (line : List Char) (lib : Library) :
    loadMembers (n + 1) { rest := [], eofbit := false, failbit := false } line lib
      = (lib, none) := by
  simp [loadMembers, getline, readUntil]

theorem writeMembers_cons (k : Int) (m : Member) (rest : Map Member) :
    writeMembers ((k, m) :: rest) = memberFields m ++ '\n' :: writeMembers rest := by
  simp [writeMembers, memberLine]

theorem loadMembers_writeMembers (ms : Map Member) :
    ∀ (fuel : Nat) (line : List Char) (lib : Library),
      ms.length + 1 ≤ fuel →
      (∀ kv ∈ ms, kv.2.memberId = kv.1) →
      (∀ kv ∈ ms, ',' ∉ kv.2.name ∧ '\n' ∉ kv.2.name) →
      (∀ kv ∈ ms, (INT_MIN ≤ kv.2.memberId ∧ kv.2.memberId ≤ INT_MAX) ∧
        ∀ b ∈ kv.2.borrowedBooks, INT_MIN ≤ b ∧ b ≤ INT_MAX) →
      ∃ lib', loadMembers fuel (IStream.ofText (writeMembers ms)) line lib = (lib', none) ∧
        lib'.books = lib.books ∧
        ∀ id, Map.find lib'.members id =
          (Map.find lib.members id).orElse (fun _ => Map.find ms id) := by
  induction ms with
  | nil =>
    intro fuel line lib hfuel _ _ _
    obtain ⟨n, rfl⟩ : ∃ n, fuel = n + 1 := ⟨fuel - 1, by omega⟩
    refine ⟨lib, loadMembers_end n line lib, rfl, ?_⟩
    intro id
    cases Map.find lib.members id <;> simp [Map.find]
  | cons kv rest ih =>
    intro fuel line lib hfuel hkey hdel hfit
    obtain ⟨n, rfl⟩ : ∃ n, fuel = n + 1 := ⟨fuel - 1, by omega⟩
    obtain ⟨k, m⟩ := kv
    have hk : m.memberId = k := hkey (k, m) (List.mem_cons_self _ _)
    obtain ⟨hc, hnl⟩ := hdel (k, m) (List.mem_cons_self _ _)
    obtain ⟨hid, hbs⟩ := hfit (k, m) (List.mem_cons_self _ _)
    obtain ⟨lib', hload, hbooks, hfind⟩ := ih n (memberFields m)
      { lib with
          members := Map.emplace lib.members m.memberId m
          nextMemberId :=
            if m.memberId ≥ lib.nextMemberId then m.memberId + 1 else lib.nextMemberId }
      (by simp only [List.length_cons] at hfuel; omega)
      (fun kv h => hkey kv (List.mem_cons_of_mem _ h))
      (fun kv h => hdel kv (List.mem_cons_of_mem _ h))
      (fun kv h => hfit kv (List.mem_cons_of_mem _ h))
    refine ⟨lib', ?_, hbooks, ?_⟩
    · rw [writeMembers_cons]
      exact (loadMembers_step n (memberFields m) (writeMembers rest) line lib _
        (memberFields_no_newline m hnl) (memberFields_isEmpty m)
        (loadMemberLine_memberFields lib m hc hid hbs)).trans hload
    · intro id
      rw [hfind id]
      simp only [Map.find_emplace, Map.find, hk]
      cases Map.find lib.members id <;> by_cases hkid : k = id <;> simp [hkid]

theorem writeBooks_length (bs : Map Book) : bs.length ≤ (writeBooks bs).length := by
  induction bs with
  | nil => simp [writeBooks]
  | cons kv rest ih =>
    simp only [writeBooks, bookLine, List.length_append, List.length_cons, List.length_nil]
    omega

theorem writeMembers_length (ms : Map Member) : ms.length ≤ (writeMembers ms).length := by
  induction ms with
  | nil => simp [writeMembers]
  | cons kv rest ih =>
    simp only [writeMembers, memberLine, List.length_append, List.length_cons, List.length_nil]
    omega

theorem loadData_saved (s prior : Library) (hk : KeysMatch s) (hd : NoDelims s)
    (hi : FitsInt s) :
    ∃ s', prior.loadData (some (writeBooks s.books)) (some (writeMembers s.members))
        = (s', none) ∧
      (∀ id, Map.find s'.books id = Map.find s.books id) ∧
      (∀ id, Map.find s'.members id = Map.find s.members id) := by
  obtain ⟨lib1, h1, hm1, _, hf1⟩ := loadBooks_writeBooks s.books
    ((writeBooks s.books).length + 1) []
    { prior with books := [], members := [], nextBookId := 1000, nextMemberId := 5000 }
    (by have := writeBooks_length s.books; omega) hk.1 hd.1 hi.1
  obtain ⟨lib2, h2, hb2, hf2⟩ := loadMembers_writeMembers s.members
    ((writeMembers s.members).length + 1) [] lib1
    (by have := writeMembers_length s.members; omega) hk.2 hd.2 hi.2
  refine ⟨lib2, ?_, ?_, ?_⟩
  · simp only [Library.loadData, h1, h2]
  · intro id
    rw [hb2, hf1 id]
    simp [Map.find]
  · intro id
    rw [hf2 id, hm1]
    simp [Map.find]

/-! ## Every record is stored under its own id -/

theorem Map.mem_emplace {β : Type} (xs : Map β) (k : Int) (v : β) (kv : Int × β)
    (h : kv ∈ Map.emplace xs k v) : kv ∈ xs ∨ kv = (k, v) := by
  unfold Map.emplace at h
  cases hf : Map.find xs k with
  | some x => simp only [hf] at h; exact Or.inl h
  | none =>
    simp only [hf, List.mem_append, List.mem_singleton] at h
    exact h

theorem Map.mem_assign {β : Type} (xs : Map β) (k : Int) (v : β) (kv : Int × β)
    (h : kv ∈ Map.assign xs k v) : kv ∈ xs ∨ kv = (k, v) := by
  induction xs with
  | nil => simp [Map.assign] at h
  | cons x rest ih =>
    obtain ⟨k0, v0⟩ := x
    by_cases h0 : k0 = k
    · subst h0
      simp only [Map.assign, if_true, List.mem_cons] at h
      rcases h with h | h
      · exact Or.inr h
      · exact Or.inl (List.mem_cons_of_mem _ h)
    · simp only [Map.assign, h0, if_false, List.mem_cons] at h
      rcases h with h | h
      · exact Or.inl (h ▸ List.mem_cons_self _ _)
      · rcases ih h with h | h
        · exact Or.inl (List.mem_cons_of_mem _ h)
        · exact Or.inr h

theorem addBook_keys (lib : Library) (t a : List Char) (h : KeysMatch lib) :
    KeysMatch (lib.addBook t a).1 := by
  refine ⟨?_, h.2⟩
  intro kv hkv
  rcases Map.mem_emplace _ _ _ _ hkv with hkv | rfl
  · exact h.1 kv hkv
  · rfl

theorem addMember_keys (lib : Library) (n : List Char) (h : KeysMatch lib) :
    KeysMatch (lib.addMember n).1 := by
  refine ⟨h.1, ?_⟩
  intro kv hkv
  rcases Map.mem_emplace _ _ _ _ hkv with hkv | rfl
  · exact h.2 kv hkv
  · rfl

theorem borrowBook_keys (lib : Library) (m b : Int) (h : KeysMatch lib) :
    KeysMatch (lib.borrowBook m b).1 := by
  unfold Library.borrowBook
  cases hm : Map.find lib.members m with
  | none => exact h
  | some mem =>
    cases hb : Map.find lib.books b with
    | none => exact h
    | some bk =>
      cases hf : bk.isBorrowed with
      | true => simpa [Book.borrowBook, hf] using h
      | false =>
        simp only [Book.borrowBook, hf]
        refine ⟨?_, ?_⟩
        · intro kv hkv
          rcases Map.mem_assign _ _ _ _ hkv with hkv | rfl
          · exact h.1 kv hkv
          · exact h.1 (b, bk) (Map.mem_of_find _ _ _ hb)
        · intro kv hkv
          rcases Map.mem_assign _ _ _ _ hkv with hkv | rfl
          · exact h.2 kv hkv
          · exact h.2 (m, mem) (Map.mem_of_find _ _ _ hm)

theorem returnBook_keys (lib : Library) (m b : Int) (h : KeysMatch lib) :
    KeysMatch (lib.returnBook m b).1 := by
  unfold Library.returnBook
  cases hm : Map.find lib.members m with
  | none => exact h
  | some mem =>
    cases hb : Map.find lib.books b with
    | none => exact h
    | some bk =>
      cases hf : bk.isBorrowed with
      | false => simpa [Book.returnBook, hf] using h
      | true =>
        have hbooks : ∀ kv ∈ Map.assign lib.books b { bk with isBorrowed := false },
            kv.2.id = kv.1 := by
          intro kv hkv
          rcases Map.mem_assign _ _ _ _ hkv with hkv | rfl
          · exact h.1 kv hkv
          · exact h.1 (b, bk) (Map.mem_of_find _ _ _ hb)
        cases he : eraseFirst b mem.borrowedBooks with
        | none =>
          simp only [Book.returnBook, hf, Member.returnBook, he]
          exact ⟨hbooks, h.2⟩
        | some ys =>
          simp only [Book.returnBook, hf, Member.returnBook, he]
          refine ⟨hbooks, ?_⟩
          intro kv hkv
          rcases Map.mem_assign _ _ _ _ hkv with hkv | rfl
          · exact h.2 kv hkv
          · exact h.2 (m, mem) (Map.mem_of_find _ _ _ hm)

theorem step_keys (lib : Library) (op : Op) (h : KeysMatch lib) :
    KeysMatch (lib.step op).1 := by
  cases op with
  | addBook t a => exact addBook_keys lib t a h
  | addMember n => exact addMember_keys lib n h
  | borrowBook m b => exact borrowBook_keys lib m b h
  | returnBook m b => exact returnBook_keys lib m b h

theorem loadBookLine_keys (lib : Library) (line : List Char) (h : KeysMatch lib) :
    KeysMatch (loadBookLine lib line).1 := by
  unfold loadBookLine
  simp only
  split
  · exact h
  · refine ⟨?_, h.2⟩
    intro kv hkv
    rcases Map.mem_emplace _ _ _ _ hkv with hkv | rfl
    · exact h.1 kv hkv
    · rfl

theorem loadBooks_keys (fuel : Nat) :
    ∀ (bf : IStream) (line : List Char) (lib : Library),
      KeysMatch lib → KeysMatch (loadBooks fuel bf line lib).1 := by
  induction fuel with
  | zero => intro bf line lib h; exact h
  | succ n ih =>
    intro bf line lib h
    simp only [loadBooks]
    split
    · exact h
    · split
      · exact ih _ _ _ h
      · have hl := loadBookLine_keys lib (getline bf line '\n').2 h
        split
        · next lib1 e heq => rw [heq] at hl; exact hl
        · next lib1 heq => rw [heq] at hl; exact ih _ _ _ hl

theorem loadBorrowed_memberId (fuel : Nat) :
    ∀ (ss : IStream) (str : List Char) (m m' : Member),
      loadBorrowed fuel ss str m = .ok m' → m'.memberId = m.memberId := by
  induction fuel with
  | zero =>
    intro ss str m m' h
    simp only [loadBorrowed, Except.ok.injEq] at h
    rw [← h]
  | succ n ih =>
    intro ss str m m' h
    simp only [loadBorrowed] at h
    split at h
    · simp only [Except.ok.injEq] at h
      rw [← h]
    · split at h
      · exact absurd h (by simp)
      · exact (ih _ _ _ _ h).trans rfl

theorem loadMemberLine_keys (lib : Library) (line : List Char) (h : KeysMatch lib) :
    KeysMatch (loadMemberLine lib line).1 := by
  unfold loadMemberLine
  simp only
  split
  · exact h
  · split
    · exact h
    · next mid _ m hm =>
      refine ⟨h.1, ?_⟩
      intro kv hkv
      rcases Map.mem_emplace _ _ _ _ hkv with hkv | rfl
      · exact h.2 kv hkv
      · exact loadBorrowed_memberId _ _ _ _ _ hm

theorem loadMembers_keys (fuel : Nat) :
    ∀ (mf : IStream) (line : List Char) (lib : Library),
      KeysMatch lib → KeysMatch (loadMembers fuel mf line lib).1 := by
  induction fuel with
  | zero => intro mf line lib h; exact h
  | succ n ih =>
    intro mf line lib h
    simp only [loadMembers]
    split
    · exact h
    · split
      · exact ih _ _ _ h
      · have hl := loadMemberLine_keys lib (getline mf line '\n').2 h
        split
        · next lib1 e heq => rw [heq] at hl; exact hl
        · next lib1 heq => rw [heq] at hl; exact ih _ _ _ hl

theorem loadData_keys (lib : Library) (bf mf : Option (List Char)) :
    KeysMatch (lib.loadData bf mf).1 := by
  have h0 : KeysMatch
      { lib with books := [], members := [], nextBookId := 1000, nextMemberId := 5000 } :=
    ⟨by simp, by simp⟩
  unfold Library.loadData
  simp only
  cases bf with
  | none =>
    cases mf with
    | none => exact h0
    | some mt => exact loadMembers_keys _ _ _ _ h0
  | some bt =>
    have h1 := loadBooks_keys (bt.length + 1) (IStream.ofText bt) []
      { lib with books := [], members := [], nextBookId := 1000, nextMemberId := 5000 } h0
    simp only
    split
    · next lib1 e heq => rw [heq] at h1; exact h1
    · next lib1 heq =>
      rw [heq] at h1
      cases mf with
      | none => exact h1
      | some mt => exact loadMembers_keys _ _ _ _ h1

theorem runCalls_keys (calls : List Call) :
    ∀ lib : Library, KeysMatch lib → KeysMatch (Library.runCalls lib calls) := by
  induction calls with
  | nil => intro lib h; exact h
  | cons c rest ih =>
    intro lib h
    cases c with
    | op o => exact ih _ (step_keys lib o h)
    | loadData bf mf => exact ih _ (loadData_keys lib bf mf)

theorem reachablePublic_keys (s : Library) (h : ReachablePublic s) : KeysMatch s := by
  obtain ⟨calls, rfl⟩ := h
  exact runCalls_keys calls Library.new ⟨by simp [Library.new], by simp [Library.new]⟩

theorem reachable_public (s : Library) (h : Reachable s) : ReachablePublic s := by
  obtain ⟨ops, rfl⟩ := h
  refine ⟨ops.map Call.op, ?_⟩
  generalize Library.new = lib
  induction ops generalizing lib with
  | nil => rfl
  | cons op rest ih => exact ih (lib.step op).1

/-! ## The iteration bounds `loadData` passes to its loops are never exhausted -/

theorem readUntil_some_length (d : Char) (xs : List Char) :
    ∀ r, (readUntil d xs).2 = some r → r.length < xs.length := by
  induction xs with
  | nil => intro r h; simp [readUntil] at h
  | cons c rest ih =>
    intro r h
    by_cases hc : c = d
    · simp only [readUntil, hc, if_true, Option.some.injEq] at h
      subst h
      simp
    · simp only [readUntil, hc, if_false] at h
      have := ih r h
      simp only [List.length_cons]
      omega

theorem readUntil_none_length (d : Char) (xs : List Char) :
    (readUntil d xs).2 = none → (readUntil d xs).1.length = xs.length := by
  induction xs with
  | nil => intro _; simp [readUntil]
  | cons c rest ih =>
    intro h
    by_cases hc : c = d
    · simp [readUntil, hc] at h
    · simp only [readUntil, hc, if_false] at h ⊢
      simp [ih h]

theorem getline_bound (is : IStream) (str : List Char) (d : Char)
    (h : (getline is str d).1.failbit = false) :
    (getline is str d).1.bound < is.bound := by
  unfold getline at h ⊢
  by_cases hbad : (is.eofbit || is.failbit) = true
  · simp [hbad] at h
  · simp only [hbad, if_false] at h ⊢
    cases hr : readUntil d is.rest with
    | mk field tail =>
      cases tail with
      | some r =>
        have hlen := readUntil_some_length d is.rest r (by rw [hr])
        simp only [Bool.or_eq_true, not_or, Bool.not_eq_true] at hbad
        simp [IStream.bound, hbad.1, hbad.2]
        exact hlen
      | none =>
        simp only [hr] at h
        have hlen := readUntil_none_length d is.rest (by rw [hr])
        simp only [hr] at hlen
        have hpos : 0 < field.length := by
          cases field with
          | nil => simp at h
          | cons c cs => simp
        simp only [Bool.or_eq_true, not_or, Bool.not_eq_true] at hbad
        simp [IStream.bound, hbad.1, hbad.2]
        omega

theorem loadBooks_succ (n : Nat) (bf : IStream) (line : List Char) (lib : Library) :
    loadBooks (n + 1) bf line lib =
      if (getline bf line '\n').1.failbit then (lib, none)
      else if (getline bf line '\n').2.isEmpty then
        loadBooks n (getline bf line '\n').1 (getline bf line '\n').2 lib
      else
        match loadBookLine lib (getline bf line '\n').2 with
        | (lib1, some e) => (lib1, some e)
        | (lib1, none) => loadBooks n (getline bf line '\n').1 (getline bf line '\n').2 lib1 :=
  rfl

theorem loadMembers_succ (n : Nat) (mf : IStream) (line : List Char) (lib : Library) :
    loadMembers (n + 1) mf line lib =
      if (getline mf line '\n').1.failbit then (lib, none)
      else if (getline mf line '\n').2.isEmpty then
        loadMembers n (getline mf line '\n').1 (getline mf line '\n').2 lib
      else
        match loadMemberLine lib (getline mf line '\n').2 with
        | (lib1, some e) => (lib1, some e)
        | (lib1, none) =>
          loadMembers n (getline mf line '\n').1 (getline mf line '\n').2 lib1 :=
  rfl

theorem loadBorrowed_succ (n : Nat) (ss : IStream) (str : List Char) (m : Member) :
    loadBorrowed (n + 1) ss str m =
      if (getline ss str ',').1.failbit then .ok m
      else
        match stoi (getline ss str ',').2 with
        | .error e => .error e
        | .ok bid =>
          loadBorrowed n (getline ss str ',').1 (getline ss str ',').2 (m.borrowBook bid) :=
  rfl

theorem loadBooks_fuel_succ (n : Nat) :
    ∀ (bf : IStream) (line : List Char) (lib : Library),
      bf.bound ≤ n → loadBooks (n + 1) bf line lib = loadBooks n bf line lib := by
  induction n with
  | zero =>
    intro bf line lib h
    have : 0 < bf.bound := by unfold IStream.bound; split <;> omega
    omega
  | succ n ih =>
    intro bf line lib h
    rw [loadBooks_succ (n + 1) bf line lib, loadBooks_succ n bf line lib]
    by_cases hf : (getline bf line '\n').1.failbit = true
    · simp [hf]
    · have hb := getline_bound bf line '\n' (by simpa using hf)
      have hstep := fun l => ih (getline bf line '\n').1 (getline bf line '\n').2 l (by omega)
      simp only [hf, hstep]

theorem loadBooks_fuel (k n : Nat) (bf : IStream) (line : List Char) (lib : Library)
    (h : bf.bound ≤ n) : loadBooks (n + k) bf line lib = loadBooks n bf line lib := by
  induction k with
  | zero => rfl
  | succ k ih =>
    rw [← Nat.add_assoc, loadBooks_fuel_succ (n + k) bf line lib (by omega), ih]

theorem loadMembers_fuel_succ (n : Nat) :
    ∀ (mf : IStream) (line : List Char) (lib : Library),
      mf.bound ≤ n → loadMembers (n + 1) mf line lib = loadMembers n mf line lib := by
  induction n with
  | zero =>
    intro mf line lib h
    have : 0 < mf.bound := by unfold IStream.bound; split <;> omega
    omega
  | succ n ih =>
    intro mf line lib h
    rw [loadMembers_succ (n + 1) mf line lib, loadMembers_succ n mf line lib]
    by_cases hf : (getline mf line '\n').1.failbit = true
    · simp [hf]
    · have hb := getline_bound mf line '\n' (by simpa using hf)
      have hstep := fun l => ih (getline mf line '\n').1 (getline mf line '\n').2 l (by omega)
      simp only [hf, hstep]

theorem loadMembers_fuel (k n : Nat) (mf : IStream) (line : List Char) (lib : Library)
    (h : mf.bound ≤ n) : loadMembers (n + k) mf line lib = loadMembers n mf line lib := by
  induction k with
  | zero => rfl
  | succ k ih =>
    rw [← Nat.add_assoc, loadMembers_fuel_succ (n + k) mf line lib (by omega), ih]

theorem loadBorrowed_fuel_succ (n : Nat) :
    ∀ (ss : IStream) (str : List Char) (m : Member),
      ss.bound ≤ n → loadBorrowed (n + 1) ss str m = loadBorrowed n ss str m := by
  induction n with
  | zero =>
    intro ss str m h
    have : 0 < ss.bound := by unfold IStream.bound; split <;> omega
    omega
  | succ n ih =>
    intro ss str m h
    rw [loadBorrowed_succ (n + 1) ss str m, loadBorrowed_succ n ss str m]
    by_cases hf : (getline ss str ',').1.failbit = true
    · simp [hf]
    · have hb := getline_bound ss str ',' (by simpa using hf)
      have hstep := fun l => ih (getline ss str ',').1 (getline ss str ',').2 l (by omega)
      simp only [hf, hstep]

theorem loadBorrowed_fuel (k n : Nat) (ss : IStream) (str : List Char) (m : Member)
    (h : ss.bound ≤ n) : loadBorrowed (n + k) ss str m = loadBorrowed n ss str m := by
  induction k with
  | zero => rfl
  | succ k ih =>
    rw [← Nat.add_assoc, loadBorrowed_fuel_succ (n + k) ss str m (by omega), ih]

theorem ofText_bound (text : List Char) : (IStream.ofText text).bound = text.length + 1 := by
  simp [IStream.ofText, IStream.bound]

theorem bound_pos (is : IStream) : 0 < is.bound := by
  unfold IStream.bound
  split <;> omega

theorem getline_bound_le (is : IStream) (str : List Char) (d : Char) :
    (getline is str d).1.bound ≤ is.bound := by
  by_cases hf : (getline is str d).1.failbit = true
  · have : (getline is str d).1.bound = 1 := by simp [IStream.bound, hf]
    have := bound_pos is
    omega
  · exact Nat.le_of_lt (getline_bound is str d (by simpa using hf))

theorem loadBooks_bound_adequate (k : Nat) (text line : List Char) (lib : Library) :
    loadBooks (text.length + 1 + k) (IStream.ofText text) line lib
      = loadBooks (text.length + 1) (IStream.ofText text) line lib :=
  loadBooks_fuel k _ _ line lib (by rw [ofText_bound])

theorem loadMembers_bound_adequate (k : Nat) (text line : List Char) (lib : Library) :
    loadMembers (text.length + 1 + k) (IStream.ofText text) line lib
      = loadMembers (text.length + 1) (IStream.ofText text) line lib :=
  loadMembers_fuel k _ _ line lib (by rw [ofText_bound])

theorem loadBorrowed_bound_adequate (k : Nat) (line s1 s2 str : List Char) (m : Member) :
    loadBorrowed (line.length + 1 + k)
        (getline (getline (IStream.ofText line) s1 ',').1 s2 ',').1 str m
      = loadBorrowed (line.length + 1)
        (getline (getline (IStream.ofText line) s1 ',').1 s2 ',').1 str m := by
  apply loadBorrowed_fuel
  have h1 := getline_bound_le (IStream.ofText line) s1 ','
  have h2 := getline_bound_le (getline (IStream.ofText line) s1 ',').1 s2 ','
  rw [ofText_bound] at h1
  omega

/-! ## The loops of `loadData`, line by line -/

theorem splitFields_readUntil (d : Char) (xs : List Char) :
    splitFields d xs =
      match readUntil d xs with
      | (f, some r) => f :: splitFields d r
      | (f, none) => [f] := by
  induction xs with
  | nil => simp [splitFields, readUntil]
  | cons c cs ih =>
    by_cases hc : c = d
    · simp [splitFields, readUntil, hc]
    · simp only [splitFields, readUntil, hc, if_false]
      rw [ih]
      cases hr : readUntil d cs with
      | mk f tail => cases tail <;> simp

theorem readUntil_some_eq (d : Char) (xs : List Char) :
    ∀ f r, readUntil d xs = (f, some r) → xs = f ++ d :: r ∧ d ∉ f := by
  induction xs with
  | nil => intro f r h; simp [readUntil] at h
  | cons c cs ih =>
    intro f r h
    by_cases hc : c = d
    · simp only [readUntil, hc, if_true, Prod.mk.injEq, Option.some.injEq] at h
      obtain ⟨rfl, rfl⟩ := h
      simp [hc]
    · simp only [readUntil, hc, if_false, Prod.mk.injEq] at h
      obtain ⟨rfl, h2⟩ := h
      obtain ⟨h3, h4⟩ := ih (readUntil d cs).1 r (by rw [← h2])
      refine ⟨by simp; exact h3, ?_⟩
      simp only [List.mem_cons, not_or]
      exact ⟨fun e => hc e.symm, h4⟩

theorem readUntil_none_eq (d : Char) (xs : List Char) :
    ∀ f, readUntil d xs = (f, none) → xs = f ∧ d ∉ f := by
  induction xs with
  | nil => intro f h; simp [readUntil] at h; subst h; simp
  | cons c cs ih =>
    intro f h
    by_cases hc : c = d
    · simp [readUntil, hc] at h
    · simp only [readUntil, hc, if_false, Prod.mk.injEq] at h
      obtain ⟨rfl, h2⟩ := h
      obtain ⟨h3, h4⟩ := ih (readUntil d cs).1 (by rw [← h2])
      refine ⟨by simp; exact h3, ?_⟩
      simp only [List.mem_cons, not_or]
      exact ⟨fun e => hc e.symm, h4⟩

theorem loadBooks_eq_lines (fuel : Nat) :
    ∀ (text line : List Char) (lib : Library), text.length + 1 ≤ fuel →
      loadBooks fuel { rest := text, eofbit := false, failbit := false } line lib
        = loadBookLines (splitFields '\n' text) lib := by
  induction fuel with
  | zero => intro text line lib h; omega
  | succ n ih =>
    intro text line lib h
    rw [loadBooks_succ, splitFields_readUntil]
    cases hr : readUntil '\n' text with
    | mk f tail =>
      cases tail with
      | some r =>
        obtain ⟨rfl, hnl⟩ := readUntil_some_eq _ _ _ _ hr
        have hlen : r.length + 1 ≤ n := by
          simp only [List.length_append, List.length_cons] at h; omega
        simp only [getline_field _ _ _ _ hnl, loadBookLines, Bool.false_eq_true, if_false,
          ih r f _ hlen]
      | none =>
        obtain ⟨rfl, hnl⟩ := readUntil_none_eq _ _ _ hr
        simp only [getline_last _ _ _ hnl, loadBookLines]
        cases text with
        | nil => simp
        | cons c cs =>
          obtain ⟨k, rfl⟩ : ∃ k, n = k + 1 := ⟨n - 1, by simp at h; omega⟩
          simp [loadBooks_succ, getline_at_eof]

theorem loadMembers_eq_lines (fuel : Nat) :
    ∀ (text line : List Char) (lib : Library), text.length + 1 ≤ fuel →
      loadMembers fuel { rest := text, eofbit := false, failbit := false } line lib
        = loadMemberLines (splitFields '\n' text) lib := by
  induction fuel with
  | zero => intro text line lib h; omega
  | succ n ih =>
    intro text line lib h
    rw [loadMembers_succ, splitFields_readUntil]
    cases hr : readUntil '\n' text with
    | mk f tail =>
      cases tail with
      | some r =>
        obtain ⟨rfl, hnl⟩ := readUntil_some_eq _ _ _ _ hr
        have hlen : r.length + 1 ≤ n := by
          simp only [List.length_append, List.length_cons] at h; omega
        simp only [getline_field _ _ _ _ hnl, loadMemberLines, Bool.false_eq_true, if_false,
          ih r f _ hlen]
      | none =>
        obtain ⟨rfl, hnl⟩ := readUntil_none_eq _ _ _ hr
        simp only [getline_last _ _ _ hnl, loadMemberLines]
        cases text with
        | nil => simp
        | cons c cs =>
          obtain ⟨k, rfl⟩ : ∃ k, n = k + 1 := ⟨n - 1, by simp at h; omega⟩
          simp [loadMembers_succ, getline_at_eof]

theorem loadData_eq_lines (lib : Library) (booksFile membersFile : Option (List Char)) :
    lib.loadData booksFile membersFile =
      match loadBookLines (fileLines booksFile) Library.new with
      | (lib1, some e) => (lib1, some e)
      | (lib1, none) => loadMemberLines (fileLines membersFile) lib1 := by
  unfold Library.loadData
  cases booksFile with
  | none =>
    cases membersFile with
    | none => rfl
    | some mt =>
      simp only [fileLines, loadBookLines, IStream.ofText]
      exact loadMembers_eq_lines _ mt [] _ (Nat.le_refl _)
  | some bt =>
    simp only [fileLines, IStream.ofText]
    rw [loadBooks_eq_lines _ bt [] _ (Nat.le_refl _)]
    show (match loadBookLines (splitFields '\n' bt) Library.new with
      | (lib1, some e) => (lib1, some e)
      | (lib1, none) =>
        match membersFile with
        | none => (lib1, none)
        | some text => loadMembers (text.length + 1) (IStream.ofText text) [] lib1) = _
    cases hb : loadBookLines (splitFields '\n' bt) Library.new with
    | mk lib1 r =>
      cases r with
      | some e => rfl
      | none =>
        cases membersFile with
        | none => rfl
        | some mt =>
          simp only [fileLines]
          exact loadMembers_eq_lines _ mt [] _ (Nat.le_refl _)

/-! ## Frame lemmas -/

theorem Map.keys_assign {β : Type} (xs : Map β) (k : Int) (v : β) :
    (Map.assign xs k v).map Prod.fst = xs.map Prod.fst := by
  induction xs with
  | nil => rfl
  | cons kv rest ih =>
    obtain ⟨k0, v0⟩ := kv
    by_cases h : k0 = k <;> simp [Map.assign, h, ih]

theorem eraseFirst_split (b : Int) (xs ys : List Int) (h : eraseFirst b xs = some ys) :
    ∃ pre post, xs = pre ++ b :: post ∧ b ∉ pre ∧ ys = pre ++ post := by
  induction xs generalizing ys with
  | nil => simp [eraseFirst] at h
  | cons x rest ih =>
    by_cases hx : x = b
    · simp only [eraseFirst, hx, if_true, Option.some.injEq] at h
      exact ⟨[], rest, by simp [hx], by simp, by simp [h]⟩
    · cases he : eraseFirst b rest with
      | none => simp [eraseFirst, hx, he] at h
      | some zs =>
        simp only [eraseFirst, hx, he, if_false, Option.some.injEq] at h
        obtain ⟨pre, post, h1, h2, h3⟩ := ih zs he
        refine ⟨x :: pre, post, by simp [h1], ?_, by simp [← h, h3]⟩
        simp only [List.mem_cons, not_or]
        exact ⟨fun e => hx e.symm, h2⟩

/-! ## Outcomes of `borrowBook` and `returnBook` -/

theorem returnBook_exn (lib : Library) (m b : Int) :
    (lib.returnBook m b).2 = returnBookSpec lib m b := by
  unfold Library.returnBook returnBookSpec
  cases hm : Map.find lib.members m with
  | none => rfl
  | some mem =>
    cases hb : Map.find lib.books b with
    | none => rfl
    | some bk =>
      cases hf : bk.isBorrowed with
      | false => simp [Book.returnBook, hf]
      | true =>
        cases he : eraseFirst b mem.borrowedBooks with
        | none =>
          have : b ∉ mem.borrowedBooks := by
            rw [← eraseFirst_isSome, he]; simp
          simp [Book.returnBook, hf, Member.returnBook, he, this]
        | some ys =>
          have : b ∈ mem.borrowedBooks := by
            rw [← eraseFirst_isSome, he]; simp
          simp [Book.returnBook, hf, Member.returnBook, he, this]

theorem borrowBook_exn (lib : Library) (m b : Int) :
    (lib.borrowBook m b).2 = borrowBookSpec lib m b := by
  unfold Library.borrowBook borrowBookSpec
  cases hm : Map.find lib.members m with
  | none => rfl
  | some mem =>
    cases hb : Map.find lib.books b with
    | none => rfl
    | some bk =>
      cases hf : bk.isBorrowed <;> simp [Book.borrowBook, hf]

/-! ## Borrowed lists along a sequence of calls -/

theorem step_keeps_not_held (lib : Library) (op : Op) (m b : Int)
    (h : ∀ mem, Map.find lib.members m = some mem → b ∉ mem.borrowedBooks)
    (hop : (op, (lib.step op).2) ≠ (Op.borrowBook m b, Ret.done)) :
    ∀ mem, Map.find (lib.step op).1.members m = some mem → b ∉ mem.borrowedBooks := by
  cases op with
  | addBook t a => simpa [Library.step, Library.addBook] using h
  | addMember n =>
    intro mem hmem
    simp only [Library.step, Library.addMember, Map.find_emplace] at hmem
    cases hf : Map.find lib.members m with
    | some x =>
      simp [hf] at hmem
      subst hmem
      exact h _ hf
    | none =>
      by_cases hk : lib.nextMemberId = m
      · simp [hf, hk] at hmem
        subst hmem
        simp [Member.new]
      · simp [hf, hk] at hmem
  | borrowBook m' b' =>
    intro mem hmem
    simp only [Library.step, Library.borrowBook] at hmem hop
    cases hm : Map.find lib.members m' with
    | none => simp only [hm] at hmem; exact h _ hmem
    | some mem' =>
      cases hb : Map.find lib.books b' with
      | none => simp only [hm, hb] at hmem; exact h _ hmem
      | some bk =>
        cases hf : bk.isBorrowed with
        | true => simp [hm, hb, Book.borrowBook, hf] at hmem; exact h _ hmem
        | false =>
          simp [hm, hb, Book.borrowBook, hf, Map.find_assign] at hmem hop
          by_cases hmm : m' = m
          · subst hmm
            simp [hm] at hmem
            subst hmem
            simp only [Member.borrowBook, List.mem_append, List.mem_singleton, not_or]
            exact ⟨h _ hm, fun hbb => hop rfl hbb.symm rfl⟩
          · simp [hmm] at hmem
            exact h _ hmem
  | returnBook m' b' =>
    intro mem hmem
    simp only [Library.step, Library.returnBook] at hmem
    cases hm : Map.find lib.members m' with
    | none => simp only [hm] at hmem; exact h _ hmem
    | some mem' =>
      cases hb : Map.find lib.books b' with
      | none => simp only [hm, hb] at hmem; exact h _ hmem
      | some bk =>
        cases hf : bk.isBorrowed with
        | false => simp [hm, hb, Book.returnBook, hf] at hmem; exact h _ hmem
        | true =>
          cases he : eraseFirst b' mem'.borrowedBooks with
          | none =>
            simp [hm, hb, Book.returnBook, hf, Member.returnBook, he] at hmem
            exact h _ hmem
          | some ys =>
            simp [hm, hb, Book.returnBook, hf, Member.returnBook, he, Map.find_assign] at hmem
            by_cases hmm : m' = m
            · subst hmm
              simp [hm] at hmem
              subst hmem
              exact fun hin => h _ hm (eraseFirst_subset _ _ _ he _ hin)
            · simp [hmm] at hmem
              exact h _ hmem

theorem run_keeps_not_held (ops : List Op) (m b : Int) :
    ∀ lib : Library,
      (∀ mem, Map.find lib.members m = some mem → b ∉ mem.borrowedBooks) →
      (Op.borrowBook m b, Ret.done) ∉ Library.trace lib ops →
      ∀ mem, Map.find (Library.run lib ops).members m = some mem → b ∉ mem.borrowedBooks := by
  induction ops with
  | nil => intro lib h _; simpa [Library.run] using h
  | cons op rest ih =>
    intro lib h hno
    simp only [Library.trace, List.mem_cons, not_or] at hno
    simp only [Library.run]
    exact ih _ (step_keeps_not_held lib op m b h (fun e => hno.1 e.symm)) hno.2

/-! ## Identifier counters along a sequence of calls -/

theorem borrowBook_counters (lib : Library) (m b : Int) :
    (lib.borrowBook m b).1.nextBookId = lib.nextBookId ∧
    (lib.borrowBook m b).1.nextMemberId = lib.nextMemberId := by
  unfold Library.borrowBook
  repeat' split
  all_goals exact ⟨rfl, rfl⟩

theorem returnBook_counters (lib : Library) (m b : Int) :
    (lib.returnBook m b).1.nextBookId = lib.nextBookId ∧
    (lib.returnBook m b).1.nextMemberId = lib.nextMemberId := by
  unfold Library.returnBook
  repeat' split
  all_goals exact ⟨rfl, rfl⟩

theorem trace_bookIds (ops : List Op) :
    ∀ lib : Library,
      List.Pairwise (· < ·) (bookIdsReturned (Library.trace lib ops)) ∧
      (∀ x ∈ bookIdsReturned (Library.trace lib ops), lib.nextBookId ≤ x) ∧
      (∀ x ∈ (bookIdsReturned (Library.trace lib ops)).head?, x = lib.nextBookId) := by
  induction ops with
  | nil => intro lib; simp [Library.trace, bookIdsReturned]
  | cons op rest ih =>
    intro lib
    cases op with
    | addBook t a =>
      obtain ⟨h1, h2, _⟩ := ih (lib.addBook t a).1
      simp only [Library.trace, Library.step, bookIdsReturned]
      refine ⟨List.pairwise_cons.mpr ⟨?_, h1⟩, ?_, by simp [Library.addBook]⟩
      · intro x hx
        have := h2 x hx
        simp only [Library.addBook] at this ⊢
        omega
      · intro x hx
        rcases List.mem_cons.mp hx with rfl | hx
        · simp [Library.addBook]
        · have := h2 x hx
          simp only [Library.addBook] at this
          omega
    | addMember n =>
      simpa [Library.trace, Library.step, bookIdsReturned, Library.addMember]
        using ih (lib.addMember n).1
    | borrowBook m b =>
      have := ih (lib.borrowBook m b).1
      rw [(borrowBook_counters lib m b).1] at this
      simpa [Library.trace, Library.step, bookIdsReturned] using this
    | returnBook m b =>
      have := ih (lib.returnBook m b).1
      rw [(returnBook_counters lib m b).1] at this
      simpa [Library.trace, Library.step, bookIdsReturned] using this

theorem trace_memberIds (ops : List Op) :
    ∀ lib : Library,
      List.Pairwise (· < ·) (memberIdsReturned (Library.trace lib ops)) ∧
      (∀ x ∈ memberIdsReturned (Library.trace lib ops), lib.nextMemberId ≤ x) ∧
      (∀ x ∈ (memberIdsReturned (Library.trace lib ops)).head?, x = lib.nextMemberId) := by
  induction ops with
  | nil => intro lib; simp [Library.trace, memberIdsReturned]
  | cons op rest ih =>
    intro lib
    cases op with
    | addMember n =>
      obtain ⟨h1, h2, _⟩ := ih (lib.addMember n).1
      simp only [Library.trace, Library.step, memberIdsReturned]
      refine ⟨List.pairwise_cons.mpr ⟨?_, h1⟩, ?_, by simp [Library.addMember]⟩
      · intro x hx
        have := h2 x hx
        simp only [Library.addMember] at this ⊢
        omega
      · intro x hx
        rcases List.mem_cons.mp hx with rfl | hx
        · simp [Library.addMember]
        · have := h2 x hx
          simp only [Library.addMember] at this
          omega
    | addBook t a =>
      simpa [Library.trace, Library.step, memberIdsReturned, Library.addBook]
        using ih (lib.addBook t a).1
    | borrowBook m b =>
      have := ih (lib.borrowBook m b).1
      rw [(borrowBook_counters lib m b).2] at this
      simpa [Library.trace, Library.step, memberIdsReturned] using this
    | returnBook m b =>
      have := ih (lib.returnBook m b).1
      rw [(returnBook_counters lib m b).2] at this
      simpa [Library.trace, Library.step, memberIdsReturned] using this

/-! ## The id counters stay ahead of the stored ids -/

theorem Map.find_none_of_keys {β : Type} (xs : Map β) (k : Int)
    (h : ∀ kv ∈ xs, kv.1 ≠ k) : Map.find xs k = none := by
  induction xs with
  | nil => rfl
  | cons kv rest ih =>
    obtain ⟨k0, v0⟩ := kv
    have h0 : ¬ k0 = k := h (k0, v0) (List.mem_cons_self _ _)
    simp only [Map.find, h0, if_false]
    exact ih (fun kv hkv => h kv (List.mem_cons_of_mem _ hkv))

theorem Map.emplace_of_find_none {β : Type} (xs : Map β) (k : Int) (v : β)
    (h : Map.find xs k = none) : Map.emplace xs k v = xs ++ [(k, v)] := by
  simp [Map.emplace, h]

theorem Map.key_of_mem_assign {β : Type} (xs : Map β) (k : Int) (v : β) (kv : Int × β)
    (h : kv ∈ Map.assign xs k v) : ∃ kv' ∈ xs, kv'.1 = kv.1 := by
  have hk : kv.1 ∈ (Map.assign xs k v).map Prod.fst := List.mem_map_of_mem _ h
  rw [Map.keys_assign] at hk
  obtain ⟨kv', h1, h2⟩ := List.mem_map.mp hk
  exact ⟨kv', h1, h2⟩

theorem borrowBook_keys_lt (lib : Library) (m b : Int) (nb nm : Int)
    (hb : ∀ kv ∈ lib.books, kv.1 < nb) (hm : ∀ kv ∈ lib.members, kv.1 < nm) :
    (∀ kv ∈ (lib.borrowBook m b).1.books, kv.1 < nb) ∧
    (∀ kv ∈ (lib.borrowBook m b).1.members, kv.1 < nm) := by
  unfold Library.borrowBook
  repeat' split
  all_goals first
    | exact ⟨hb, hm⟩
    | refine ⟨?_, ?_⟩
      · intro kv hkv
        obtain ⟨kv', h1, h2⟩ := Map.key_of_mem_assign _ _ _ _ hkv
        exact h2 ▸ hb kv' h1
      · intro kv hkv
        obtain ⟨kv', h1, h2⟩ := Map.key_of_mem_assign _ _ _ _ hkv
        exact h2 ▸ hm kv' h1

theorem returnBook_keys_lt (lib : Library) (m b : Int) (nb nm : Int)
    (hb : ∀ kv ∈ lib.books, kv.1 < nb) (hm : ∀ kv ∈ lib.members, kv.1 < nm) :
    (∀ kv ∈ (lib.returnBook m b).1.books, kv.1 < nb) ∧
    (∀ kv ∈ (lib.returnBook m b).1.members, kv.1 < nm) := by
  have hb' : ∀ k v, ∀ kv ∈ Map.assign lib.books k v, kv.1 < nb := by
    intro k v kv hkv
    obtain ⟨kv', h1, h2⟩ := Map.key_of_mem_assign _ _ _ _ hkv
    exact h2 ▸ hb kv' h1
  have hm' : ∀ k v, ∀ kv ∈ Map.assign lib.members k v, kv.1 < nm := by
    intro k v kv hkv
    obtain ⟨kv', h1, h2⟩ := Map.key_of_mem_assign _ _ _ _ hkv
    exact h2 ▸ hm kv' h1
  unfold Library.returnBook
  repeat' split
  all_goals first
    | exact ⟨hb, hm⟩
    | exact ⟨hb' _ _, hm⟩
    | exact ⟨hb' _ _, hm' _ _⟩

theorem step_ahead (lib : Library) (op : Op) (h : CountersAhead lib) :
    CountersAhead (lib.step op).1 := by
  obtain ⟨h1, h2, h3, h4⟩ := h
  cases op with
  | addBook t a =>
    refine ⟨?_, ?_, h3, h4⟩
    · simp only [Library.step, Library.addBook]; omega
    · intro kv hkv
      simp only [Library.step, Library.addBook] at hkv ⊢
      rcases Map.mem_emplace _ _ _ _ hkv with hkv | rfl
      · have := h2 kv hkv; omega
      · simp
  | addMember n =>
    refine ⟨h1, h2, ?_, ?_⟩
    · simp only [Library.step, Library.addMember]; omega
    · intro kv hkv
      simp only [Library.step, Library.addMember] at hkv ⊢
      rcases Map.mem_emplace _ _ _ _ hkv with hkv | rfl
      · have := h4 kv hkv; omega
      · simp
  | borrowBook m b =>
    have hk := borrowBook_keys_lt lib m b _ _ h2 h4
    have hc := borrowBook_counters lib m b
    simp only [Library.step]
    exact ⟨hc.1 ▸ h1, hc.1 ▸ hk.1, hc.2 ▸ h3, hc.2 ▸ hk.2⟩
  | returnBook m b =>
    have hk := returnBook_keys_lt lib m b _ _ h2 h4
    have hc := returnBook_counters lib m b
    simp only [Library.step]
    exact ⟨hc.1 ▸ h1, hc.1 ▸ hk.1, hc.2 ▸ h3, hc.2 ▸ hk.2⟩

theorem loadBookLine_ahead (lib : Library) (line : List Char) (h : CountersAhead lib) :
    CountersAhead (loadBookLine lib line).1 := by
  obtain ⟨h1, h2, h3, h4⟩ := h
  unfold loadBookLine
  simp only
  split
  · exact ⟨h1, h2, h3, h4⟩
  · next id _ =>
    refine ⟨?_, ?_, h3, h4⟩
    · simp only; split <;> omega
    · intro kv hkv
      simp only at hkv ⊢
      rcases Map.mem_emplace _ _ _ _ hkv with hkv | rfl
      · have := h2 kv hkv; split <;> omega
      · simp only; split <;> omega

theorem loadMemberLine_ahead (lib : Library) (line : List Char) (h : CountersAhead lib) :
    CountersAhead (loadMemberLine lib line).1 := by
  obtain ⟨h1, h2, h3, h4⟩ := h
  unfold loadMemberLine
  simp only
  split
  · exact ⟨h1, h2, h3, h4⟩
  · split
    · exact ⟨h1, h2, h3, h4⟩
    · next mid _ m _ =>
      refine ⟨h1, h2, ?_, ?_⟩
      · simp only; split <;> omega
      · intro kv hkv
        simp only at hkv ⊢
        rcases Map.mem_emplace _ _ _ _ hkv with hkv | rfl
        · have := h4 kv hkv; split <;> omega
        · simp only; split <;> omega

theorem loadBookLines_ahead (lines : List (List Char)) :
    ∀ lib : Library, CountersAhead lib → CountersAhead (loadBookLines lines lib).1 := by
  induction lines with
  | nil => intro lib h; exact h
  | cons line rest ih =>
    intro lib h
    simp only [loadBookLines]
    split
    · exact ih lib h
    · have hl := loadBookLine_ahead lib line h
      split
      · next lib1 e heq => rw [heq] at hl; exact hl
      · next lib1 heq => rw [heq] at hl; exact ih _ hl

theorem loadMemberLines_ahead (lines : List (List Char)) :
    ∀ lib : Library, CountersAhead lib → CountersAhead (loadMemberLines lines lib).1 := by
  induction lines with
  | nil => intro lib h; exact h
  | cons line rest ih =>
    intro lib h
    simp only [loadMemberLines]
    split
    · exact ih lib h
    · have hl := loadMemberLine_ahead lib line h
      split
      · next lib1 e heq => rw [heq] at hl; exact hl
      · next lib1 heq => rw [heq] at hl; exact ih _ hl

theorem new_ahead : CountersAhead Library.new :=
  ⟨by simp [Library.new], by simp [Library.new], by simp [Library.new], by simp [Library.new]⟩

theorem loadData_ahead (lib : Library) (bf mf : Option (List Char)) :
    CountersAhead (lib.loadData bf mf).1 := by
  rw [loadData_eq_lines]
  have h1 := loadBookLines_ahead (fileLines bf) Library.new new_ahead
  split
  · next lib1 e heq => rw [heq] at h1; exact h1
  · next lib1 heq => rw [heq] at h1; exact loadMemberLines_ahead _ _ h1

theorem runCalls_ahead (calls : List Call) :
    ∀ lib : Library, CountersAhead lib → CountersAhead (Library.runCalls lib calls) := by
  induction calls with
  | nil => intro lib h; exact h
  | cons c rest ih =>
    intro lib h
    cases c with
    | op o => exact ih _ (step_ahead lib o h)
    | loadData bf mf => exact ih _ (loadData_ahead lib bf mf)

theorem reachablePublic_ahead (s : Library) (h : ReachablePublic s) : CountersAhead s := by
  obtain ⟨calls, rfl⟩ := h
  exact runCalls_ahead calls Library.new new_ahead

theorem loadMemberLine_books (lib : Library) (line : List Char) :
    (loadMemberLine lib line).1.books = lib.books ∧
    (loadMemberLine lib line).1.nextBookId = lib.nextBookId := by
  unfold loadMemberLine
  simp only
  repeat' split
  all_goals exact ⟨rfl, rfl⟩

theorem loadMemberLines_books (lines : List (List Char)) :
    ∀ lib : Library, (loadMemberLines lines lib).1.books = lib.books ∧
      (loadMemberLines lines lib).1.nextBookId = lib.nextBookId := by
  induction lines with
  | nil => intro lib; exact ⟨rfl, rfl⟩
  | cons line rest ih =>
    intro lib
    simp only [loadMemberLines]
    split
    · exact ih lib
    · have hl := loadMemberLine_books lib line
      split
      · next lib1 e heq => rw [heq] at hl; exact hl
      · next lib1 heq =>
        rw [heq] at hl
        have := ih lib1
        exact ⟨this.1.trans hl.1, this.2.trans hl.2⟩

theorem loadBookLine_members (lib : Library) (line : List Char) :
    (loadBookLine lib line).1.members = lib.members ∧
    (loadBookLine lib line).1.nextMemberId = lib.nextMemberId := by
  unfold loadBookLine
  simp only
  repeat' split
  all_goals exact ⟨rfl, rfl⟩

theorem loadBookLines_members (lines : List (List Char)) :
    ∀ lib : Library, (loadBookLines lines lib).1.members = lib.members ∧
      (loadBookLines lines lib).1.nextMemberId = lib.nextMemberId := by
  induction lines with
  | nil => intro lib; exact ⟨rfl, rfl⟩
  | cons line rest ih =>
    intro lib
    simp only [loadBookLines]
    split
    · exact ih lib
    · have hl := loadBookLine_members lib line
      split
      · next lib1 e heq => rw [heq] at hl; exact hl
      · next lib1 heq =>
        rw [heq] at hl
        have := ih lib1
        exact ⟨this.1.trans hl.1, this.2.trans hl.2⟩

theorem stoi_exn (str : List Char) (e : Exn) (h : stoi str = .error e) :
    e.kind = ErrorKind.ParseError := by
  unfold stoi at h
  rcases ite_eq_iff.mp h with ⟨_, h⟩ | ⟨_, h⟩
  · cases h
    rfl
  · rcases ite_eq_iff.mp h with ⟨_, h⟩ | ⟨_, h⟩
    · cases h
      rfl
    · cases h

theorem loadBookLine_exn (lib : Library) (line : List Char) (e : Exn)
    (h : (loadBookLine lib line).2 = some e) :
    e.kind = ErrorKind.ParseError ∧ (loadBookLine lib line).1 = lib := by
  unfold loadBookLine at h ⊢
  simp only at h ⊢
  split at h
  · next e' he =>
    simp only [Option.some.injEq] at h
    subst h
    exact ⟨stoi_exn _ _ he, by simp [he]⟩
  · exact absurd h (by simp)

theorem loadBorrowed_exn (fuel : Nat) :
    ∀ (ss : IStream) (str : List Char) (m : Member) (e : Exn),
      loadBorrowed fuel ss str m = .error e → e.kind = ErrorKind.ParseError := by
  induction fuel with
  | zero => intro ss str m e h; simp [loadBorrowed] at h
  | succ n ih =>
    intro ss str m e h
    rw [loadBorrowed_succ] at h
    split at h
    · exact absurd h (by simp)
    · split at h
      · next e' he =>
        simp only [Except.error.injEq] at h
        subst h
        exact stoi_exn _ _ he
      · exact ih _ _ _ _ h

theorem loadMemberLine_exn (lib : Library) (line : List Char) (e : Exn)
    (h : (loadMemberLine lib line).2 = some e) :
    e.kind = ErrorKind.ParseError ∧ (loadMemberLine lib line).1 = lib := by
  unfold loadMemberLine at h ⊢
  simp only at h ⊢
  split at h
  · next e' he =>
    simp only [Option.some.injEq] at h
    subst h
    exact ⟨stoi_exn _ _ he, by simp [he]⟩
  · next mid hmid =>
    split at h
    · next e' he =>
      simp only [Option.some.injEq] at h
      subst h
      exact ⟨loadBorrowed_exn _ _ _ _ _ he, by simp [hmid, he]⟩
    · exact absurd h (by simp)

theorem loadBookLines_exn (lines : List (List Char)) :
    ∀ (lib : Library) (e : Exn), (loadBookLines lines lib).2 = some e →
      e.kind = ErrorKind.ParseError := by
  induction lines with
  | nil => intro lib e h; simp [loadBookLines] at h
  | cons line rest ih =>
    intro lib e h
    simp only [loadBookLines] at h
    split at h
    · exact ih lib e h
    · split at h
      · next lib1 e' heq =>
        simp only [Option.some.injEq] at h
        subst h
        exact (loadBookLine_exn lib line e' (by rw [heq])).1
      · exact ih _ e h

theorem loadMemberLines_exn (lines : List (List Char)) :
    ∀ (lib : Library) (e : Exn), (loadMemberLines lines lib).2 = some e →
      e.kind = ErrorKind.ParseError := by
  induction lines with
  | nil => intro lib e h; simp [loadMemberLines] at h
  | cons line rest ih =>
    intro lib e h
    simp only [loadMemberLines] at h
    split at h
    · exact ih lib e h
    · split at h
      · next lib1 e' heq =>
        simp only [Option.some.injEq] at h
        subst h
        exact (loadMemberLine_exn lib line e' (by rw [heq])).1
      · exact ih _ e h

theorem loadData_exn (lib : Library) (bf mf : Option (List Char)) (e : Exn)
    (h : (lib.loadData bf mf).2 = some e) : e.kind = ErrorKind.ParseError := by
  rw [loadData_eq_lines] at h
  split at h
  · next lib1 e' heq =>
    simp only [Option.some.injEq] at h
    subst h
    exact loadBookLines_exn _ _ _ (by rw [heq])
  · exact loadMemberLines_exn _ _ _ h

/-! ## The loop bodies of `loadData`, field by field -/

theorem splitFields_ne_nil (d : Char) (xs : List Char) : splitFields d xs ≠ [] := by
  rw [splitFields_readUntil]
  cases hr : readUntil d xs with
  | mk f tail => cases tail <;> simp

theorem fieldsLeft_ofText (d : Char) (xs : List Char) :
    FieldsLeft d (IStream.ofText xs) (splitFields d xs) :=
  Or.inl ⟨rfl, rfl, rfl⟩

theorem getline_fieldsLeft (d : Char) (ss : IStream) (fs : List (List Char))
    (h : FieldsLeft d ss fs) :
    (getline ss [] d).2 = fs.headD [] ∧ FieldsLeft d (getline ss [] d).1 fs.tail := by
  rcases h with ⟨h1, h2, h3⟩ | ⟨h1, h2⟩
  · obtain ⟨rest, eb, fb⟩ := ss
    simp only at h1 h2 h3
    subst h1 h2 h3
    rw [splitFields_readUntil]
    cases hr : readUntil d rest with
    | mk f tail =>
      cases tail with
      | some r =>
        obtain ⟨rfl, hd⟩ := readUntil_some_eq _ _ _ _ hr
        rw [getline_field _ _ _ _ hd]
        exact ⟨rfl, Or.inl ⟨rfl, rfl, rfl⟩⟩
      | none =>
        obtain ⟨rfl, hd⟩ := readUntil_none_eq _ _ _ hr
        rw [getline_last _ _ _ hd]
        exact ⟨rfl, Or.inr ⟨rfl, rfl⟩⟩
  · subst h2
    simp only [getline, h1, Bool.true_or, if_true, List.headD_nil, List.tail_nil]
    exact ⟨trivial, Or.inr ⟨rfl, rfl⟩⟩

theorem headD_tail {α : Type} (xs : List α) (a : α) : xs.tail.headD a = xs.getD 1 a := by
  cases xs with
  | nil => rfl
  | cons x rest => cases rest <;> rfl

theorem headD_tail_tail {α : Type} (xs : List α) (a : α) :
    xs.tail.tail.headD a = xs.getD 2 a := by
  cases xs with
  | nil => rfl
  | cons x rest =>
    cases rest with
    | nil => rfl
    | cons y rest2 => cases rest2 <;> rfl

theorem headD_tail_tail_tail {α : Type} (xs : List α) (a : α) :
    xs.tail.tail.tail.headD a = xs.getD 3 a := by
  cases xs with
  | nil => rfl
  | cons x rest =>
    cases rest with
    | nil => rfl
    | cons y rest2 =>
      cases rest2 with
      | nil => rfl
      | cons z rest3 => cases rest3 <;> rfl

theorem loadBookLine_fields (lib : Library) (line : List Char) :
    loadBookLine lib line =
      match stoi ((splitFields ',' line).headD []) with
      | .error e => (lib, some e)
      | .ok id =>
        ({ lib with
            books := Map.emplace lib.books id
              { id := id, title := (splitFields ',' line).getD 1 [],
                author := (splitFields ',' line).getD 2 [],
                isBorrowed := decide ((splitFields ',' line).getD 3 [] = ['1']) }
            nextBookId := if id ≥ lib.nextBookId then id + 1 else lib.nextBookId }, none) := by
  have h1 := getline_fieldsLeft ',' _ _ (fieldsLeft_ofText ',' line)
  have h2 := getline_fieldsLeft ',' _ _ h1.2
  have h3 := getline_fieldsLeft ',' _ _ h2.2
  have h4 := getline_fieldsLeft ',' _ _ h3.2
  have e2 := h2.1.trans (headD_tail _ _)
  have e3 := h3.1.trans (headD_tail_tail _ _)
  have e4 := h4.1.trans (headD_tail_tail_tail _ _)
  unfold loadBookLine
  simp only [h1.1, e2, e3, e4, Book.new, Book.setBorrowed]

theorem readFields_single_nil : readFields [[]] = [] := rfl

theorem readFields_single (f : List Char) (h : f ≠ []) : readFields [f] = [f] := by
  simp [readFields, h]

theorem readFields_cons (f : List Char) (fs : List (List Char)) (h : fs ≠ []) :
    readFields (f :: fs) = f :: readFields fs := by
  cases fs with
  | nil => exact absurd rfl h
  | cons g gs =>
    unfold readFields
    rw [List.getLast?_cons_cons]
    by_cases hl : (g :: gs).getLast? = some []
    · simp [hl]
    · simp [hl]

theorem member_append_nil (m : Member) :
    ({ m with borrowedBooks := m.borrowedBooks ++ [] } : Member) = m := by
  cases m; simp

theorem loadBorrowed_good (fuel : Nat) :
    ∀ (xs str : List Char) (m : Member), xs.length + 1 ≤ fuel →
      loadBorrowed fuel { rest := xs, eofbit := false, failbit := false } str m =
        (parseIds (readFields (splitFields ',' xs))).map
          (fun bs => { m with borrowedBooks := m.borrowedBooks ++ bs }) := by
  induction fuel with
  | zero => intro xs str m h; omega
  | succ n ih =>
    intro xs str m h
    rw [loadBorrowed_succ, splitFields_readUntil]
    cases hr : readUntil ',' xs with
    | mk f tail =>
      cases tail with
      | some r =>
        obtain ⟨rfl, hd⟩ := readUntil_some_eq _ _ _ _ hr
        have hlen : r.length + 1 ≤ n := by
          simp only [List.length_append, List.length_cons] at h; omega
        simp only [getline_field _ _ _ _ hd, Bool.false_eq_true, if_false,
          readFields_cons f _ (splitFields_ne_nil ',' r), parseIds]
        cases hs : stoi f with
        | error e => rfl
        | ok v =>
          simp only [ih r f _ hlen]
          cases parseIds (readFields (splitFields ',' r)) with
          | error e => rfl
          | ok bs => simp [Except.map, Member.borrowBook]
      | none =>
        obtain ⟨rfl, hd⟩ := readUntil_none_eq _ _ _ hr
        simp only [getline_last _ _ _ hd]
        cases xs with
        | nil => simp [readFields_single_nil, parseIds, Except.map, member_append_nil]
        | cons c cs =>
          obtain ⟨k, rfl⟩ : ∃ k, n = k + 1 := ⟨n - 1, by simp at h; omega⟩
          simp only [List.isEmpty_cons, Bool.false_eq_true, if_false,
            readFields_single (c :: cs) (by simp), parseIds]
          cases hs : stoi (c :: cs) with
          | error e => rfl
          | ok v => simp [loadBorrowed_at_eof, Except.map, Member.borrowBook]

theorem loadBorrowed_fieldsLeft (fuel : Nat) (ss : IStream) (fs : List (List Char))
    (str : List Char) (m : Member) (h : FieldsLeft ',' ss fs) (hf : ss.bound ≤ fuel) :
    loadBorrowed fuel ss str m =
      (parseIds (readFields fs)).map
        (fun bs => { m with borrowedBooks := m.borrowedBooks ++ bs }) := by
  rcases h with ⟨h1, h2, h3⟩ | ⟨h1, h2⟩
  · obtain ⟨rest, eb, fb⟩ := ss
    simp only at h1 h2 h3
    subst h1 h2 h3
    exact loadBorrowed_good fuel rest str m (by simpa [IStream.bound] using hf)
  · obtain ⟨rest, eb, fb⟩ := ss
    simp only at h1
    subst h1 h2
    obtain ⟨k, rfl⟩ : ∃ k, fuel = k + 1 := ⟨fuel - 1, by simp [IStream.bound] at hf; omega⟩
    rw [loadBorrowed_at_eof]
    simp [readFields, parseIds, Except.map, member_append_nil]

theorem drop_two_eq_tail_tail {α : Type} (xs : List α) : xs.drop 2 = xs.tail.tail := by
  cases xs with
  | nil => rfl
  | cons x rest => cases rest <;> rfl

theorem loadMemberLine_fields (lib : Library) (line : List Char) :
    loadMemberLine lib line =
      match stoi ((splitFields ',' line).headD []) with
      | .error e => (lib, some e)
      | .ok mid =>
        match parseIds (readFields ((splitFields ',' line).drop 2)) with
        | .error e => (lib, some e)
        | .ok bs =>
          ({ lib with
              members := Map.emplace lib.members mid
                { memberId := mid, name := (splitFields ',' line).getD 1 [],
                  borrowedBooks := bs }
              nextMemberId :=
                if mid ≥ lib.nextMemberId then mid + 1 else lib.nextMemberId }, none) := by
  have h1 := getline_fieldsLeft ',' _ _ (fieldsLeft_ofText ',' line)
  have h2 := getline_fieldsLeft ',' _ _ h1.2
  have e2 := h2.1.trans (headD_tail _ _)
  have hb1 := getline_bound_le (IStream.ofText line) [] ','
  have hb2 := getline_bound_le (getline (IStream.ofText line) [] ',').1 [] ','
  rw [ofText_bound] at hb1
  have hl := fun m => loadBorrowed_fieldsLeft (line.length + 1) _ _ [] m h2.2 (by omega)
  unfold loadMemberLine
  simp only [h1.1, e2, hl, drop_two_eq_tail_tail, Member.new]
  cases stoi ((splitFields ',' line).headD []) with
  | error e => rfl
  | ok mid =>
    simp only
    cases parseIds (readFields (splitFields ',' line).tail.tail) with
    | error e => rfl
    | ok bs => simp [Except.map]

/-! ## Files as lists of lines -/

theorem splitFields_no_delim (d : Char) (xs : List Char) :
    ∀ f ∈ splitFields d xs, d ∉ f := by
  induction xs with
  | nil => intro f hf; simp [splitFields] at hf; simp [hf]
  | cons c cs ih =>
    intro f hf
    by_cases hc : c = d
    · simp only [splitFields, hc, if_true, List.mem_cons] at hf
      rcases hf with rfl | hf
      · simp
      · exact ih f hf
    · simp only [splitFields, hc, if_false] at hf
      cases hs : splitFields d cs with
      | nil => exact absurd hs (splitFields_ne_nil d cs)
      | cons g gs =>
        rw [hs] at hf ih
        simp only [List.mem_cons] at hf
        rcases hf with rfl | hf
        · have hg := ih g (List.mem_cons_self _ _)
          simp only [List.mem_cons, not_or]
          exact ⟨fun e => hc e.symm, hg⟩
        · exact ih f (List.mem_cons_of_mem _ hf)

theorem splitFields_append (d : Char) (f r : List Char) (h : d ∉ f) :
    splitFields d (f ++ d :: r) = f :: splitFields d r := by
  rw [splitFields_readUntil, readUntil_append d f r h]

theorem splitFields_joinLines (ls : List (List Char)) (h : ∀ l ∈ ls, '\n' ∉ l) :
    splitFields '\n' (joinLines ls) = ls ++ [[]] := by
  induction ls with
  | nil => rfl
  | cons l rest ih =>
    simp only [joinLines]
    rw [splitFields_append _ _ _ (h l (List.mem_cons_self _ _)),
      ih (fun x hx => h x (List.mem_cons_of_mem _ hx))]
    rfl

theorem loadBookLines_append (xs ys : List (List Char)) :
    ∀ lib : Library, loadBookLines (xs ++ ys) lib =
      match loadBookLines xs lib with
      | (l, some e) => (l, some e)
      | (l, none) => loadBookLines ys l := by
  induction xs with
  | nil => intro lib; rfl
  | cons x rest ih =>
    intro lib
    simp only [List.cons_append, loadBookLines]
    split
    · exact ih lib
    · split
      · rfl
      · exact ih _

theorem loadMemberLines_append (xs ys : List (List Char)) :
    ∀ lib : Library, loadMemberLines (xs ++ ys) lib =
      match loadMemberLines xs lib with
      | (l, some e) => (l, some e)
      | (l, none) => loadMemberLines ys l := by
  induction xs with
  | nil => intro lib; rfl
  | cons x rest ih =>
    intro lib
    simp only [List.cons_append, loadMemberLines]
    split
    · exact ih lib
    · split
      · rfl
      · exact ih _

theorem loadBookLines_blank_end (xs : List (List Char)) (lib : Library) :
    loadBookLines (xs ++ [[]]) lib = loadBookLines xs lib := by
  rw [loadBookLines_append]
  cases h : loadBookLines xs lib with
  | mk l r => cases r <;> rfl

theorem loadMemberLines_blank_end (xs : List (List Char)) (lib : Library) :
    loadMemberLines (xs ++ [[]]) lib = loadMemberLines xs lib := by
  rw [loadMemberLines_append]
  cases h : loadMemberLines xs lib with
  | mk l r => cases r <;> rfl

theorem loadBookLine_ok_iff (lib : Library) (line : List Char) :
    (loadBookLine lib line).2 = none ↔
      ∃ id, stoi ((splitFields ',' line).headD []) = .ok id := by
  rw [loadBookLine_fields]
  cases stoi ((splitFields ',' line).headD []) <;> simp

theorem loadBookLine_error (lib : Library) (line : List Char) (e : Exn)
    (h : stoi ((splitFields ',' line).headD []) = .error e) :
    loadBookLine lib line = (lib, some e) := by
  rw [loadBookLine_fields, h]

theorem loadBookLine_error_iff (lib : Library) (line : List Char) (e : Exn) :
    (loadBookLine lib line).2 = some e ↔
      stoi ((splitFields ',' line).headD []) = .error e := by
  rw [loadBookLine_fields]
  cases stoi ((splitFields ',' line).headD []) <;> simp

theorem loadBookLines_ok_iff (lines : List (List Char)) :
    ∀ lib : Library, (loadBookLines lines lib).2 = none ↔
      ∀ line ∈ lines, line ≠ [] →
        ∃ id, stoi ((splitFields ',' line).headD []) = .ok id := by
  induction lines with
  | nil => intro lib; simp [loadBookLines]
  | cons line rest ih =>
    intro lib
    simp only [loadBookLines, List.mem_cons, forall_eq_or_imp]
    by_cases hl : line = []
    · subst hl
      simp [ih lib]
    · have hne : line.isEmpty = false := by cases line <;> simp_all
      simp only [hne, Bool.false_eq_true, if_false]
      have hk := loadBookLine_ok_iff lib line
      cases hb : loadBookLine lib line with
      | mk lib1 r =>
        rw [hb] at hk
        cases r with
        | some e =>
          simp only at hk ⊢
          constructor
          · intro h; cases h
          · intro h
            exact absurd (hk.mpr (h.1 hl)) (by simp)
        | none =>
          simp only at hk ⊢
          rw [ih lib1]
          exact ⟨fun h => ⟨fun _ => hk.mp trivial, h⟩, fun h => h.2⟩

theorem parseIds_error_of_mem (fs : List (List Char)) (f : List Char) (e : Exn)
    (hf : f ∈ fs) (he : stoi f = .error e) : ∃ e', parseIds fs = .error e' := by
  induction fs with
  | nil => simp at hf
  | cons g rest ih =>
    simp only [parseIds]
    cases hg : stoi g with
    | error e1 => exact ⟨e1, rfl⟩
    | ok v =>
      rcases List.mem_cons.mp hf with rfl | hf
      · rw [he] at hg; cases hg
      · obtain ⟨e', h'⟩ := ih hf
        exact ⟨e', by simp [h']⟩

theorem loadMemberLine_fails (line : List Char)
    (h : (∃ e, stoi ((splitFields ',' line).headD []) = .error e) ∨
      ∃ f ∈ readFields ((splitFields ',' line).drop 2), ∃ e, stoi f = .error e) :
    ∃ e, ∀ lib : Library, loadMemberLine lib line = (lib, some e) := by
  rcases h with ⟨e, he⟩ | ⟨f, hf, e, he⟩
  · exact ⟨e, fun lib => by rw [loadMemberLine_fields, he]⟩
  · obtain ⟨e', h'⟩ := parseIds_error_of_mem _ f e hf he
    cases hs : stoi ((splitFields ',' line).headD []) with
    | error e1 => exact ⟨e1, fun lib => by rw [loadMemberLine_fields, hs]⟩
    | ok mid => exact ⟨e', fun lib => by rw [loadMemberLine_fields, hs, h']⟩

theorem loadMemberLines_fails (lines : List (List Char)) (line : List Char)
    (hmem : line ∈ lines) (hne : line ≠ [])
    (hfail : ∃ e, ∀ lib : Library, loadMemberLine lib line = (lib, some e)) :
    ∀ lib : Library, ∃ e, (loadMemberLines lines lib).2 = some e := by
  induction lines with
  | nil => simp at hmem
  | cons l rest ih =>
    intro lib
    simp only [loadMemberLines]
    by_cases hl : l = []
    · subst hl
      rcases List.mem_cons.mp hmem with rfl | hmem
      · exact absurd rfl hne
      · simpa using ih hmem lib
    · have hle : l.isEmpty = false := by cases l <;> simp_all
      simp only [hle, Bool.false_eq_true, if_false]
      cases hb : loadMemberLine lib l with
      | mk lib1 r =>
        cases r with
        | some e => exact ⟨e, rfl⟩
        | none =>
          rcases List.mem_cons.mp hmem with rfl | hmem
          · obtain ⟨e, he⟩ := hfail
            rw [he lib] at hb
            cases hb
          · exact ih hmem lib1

theorem loadMemberLine_find_mono (lib : Library) (line : List Char) (id : Int) (m : Member)
    (h : Map.find lib.members id = some m) :
    Map.find (loadMemberLine lib line).1.members id = some m := by
  rw [loadMemberLine_fields]
  cases stoi ((splitFields ',' line).headD []) with
  | error e => exact h
  | ok mid =>
    simp only
    cases parseIds (readFields ((splitFields ',' line).drop 2)) with
    | error e => exact h
    | ok bs => simp [Map.find_emplace, h]

theorem loadMemberLines_find_mono (lines : List (List Char)) (id : Int) (m : Member) :
    ∀ lib : Library, Map.find lib.members id = some m →
      Map.find (loadMemberLines lines lib).1.members id = some m := by
  induction lines with
  | nil => intro lib h; exact h
  | cons line rest ih =>
    intro lib h
    simp only [loadMemberLines]
    split
    · exact ih lib h
    · have hl := loadMemberLine_find_mono lib line id m h
      split
      · next lib1 e heq => rw [heq] at hl; exact hl
      · next lib1 heq => rw [heq] at hl; exact ih _ hl

/-! ## The store after a failed load -/

theorem Map.emplace_ne_nil {β : Type} (xs : Map β) (k : Int) (v : β) :
    Map.emplace xs k v ≠ [] := by
  unfold Map.emplace
  cases h : Map.find xs k with
  | some x =>
    cases xs with
    | nil => simp [Map.find] at h
    | cons a rest => simp
  | none => simp

theorem loadBookLines_fail_split (lines : List (List Char)) :
    ∀ (lib s : Library) (e : Exn), loadBookLines lines lib = (s, some e) →
      ∃ earlier bad later, lines = earlier ++ bad :: later ∧ bad ≠ [] ∧
        loadBookLine s bad = (s, some e) ∧ loadBookLines earlier lib = (s, none) := by
  induction lines with
  | nil => intro lib s e h; simp [loadBookLines] at h
  | cons line rest ih =>
    intro lib s e h
    simp only [loadBookLines] at h
    by_cases hl : line = []
    · subst hl
      simp only [List.isEmpty_nil, if_true] at h
      obtain ⟨earlier, bad, later, h1, h2, h3, h4⟩ := ih lib s e h
      exact ⟨[] :: earlier, bad, later, by simp [h1], h2, h3, by simp [loadBookLines, h4]⟩
    · have hle : line.isEmpty = false := by cases line <;> simp_all
      simp only [hle, Bool.false_eq_true, if_false] at h
      cases hb : loadBookLine lib line with
      | mk lib1 r =>
        rw [hb] at h
        cases r with
        | some e1 =>
          simp only [Prod.mk.injEq, Option.some.injEq] at h
          obtain ⟨rfl, rfl⟩ := h
          have hlib := (loadBookLine_exn lib line e1 (by rw [hb])).2
          rw [hb] at hlib
          simp only at hlib
          subst hlib
          exact ⟨[], line, rest, rfl, hl, hb, rfl⟩
        | none =>
          simp only at h
          obtain ⟨earlier, bad, later, h1, h2, h3, h4⟩ := ih lib1 s e h
          refine ⟨line :: earlier, bad, later, by simp [h1], h2, h3, ?_⟩
          simp [loadBookLines, hle, hb, h4]

theorem loadMemberLines_fail_split (lines : List (List Char)) :
    ∀ (lib s : Library) (e : Exn), loadMemberLines lines lib = (s, some e) →
      ∃ earlier bad later, lines = earlier ++ bad :: later ∧ bad ≠ [] ∧
        loadMemberLine s bad = (s, some e) ∧ loadMemberLines earlier lib = (s, none) := by
  induction lines with
  | nil => intro lib s e h; simp [loadMemberLines] at h
  | cons line rest ih =>
    intro lib s e h
    simp only [loadMemberLines] at h
    by_cases hl : line = []
    · subst hl
      simp only [List.isEmpty_nil, if_true] at h
      obtain ⟨earlier, bad, later, h1, h2, h3, h4⟩ := ih lib s e h
      exact ⟨[] :: earlier, bad, later, by simp [h1], h2, h3, by simp [loadMemberLines, h4]⟩
    · have hle : line.isEmpty = false := by cases line <;> simp_all
      simp only [hle, Bool.false_eq_true, if_false] at h
      cases hb : loadMemberLine lib line with
      | mk lib1 r =>
        rw [hb] at h
        cases r with
        | some e1 =>
          simp only [Prod.mk.injEq, Option.some.injEq] at h
          obtain ⟨rfl, rfl⟩ := h
          have hlib := (loadMemberLine_exn lib line e1 (by rw [hb])).2
          rw [hb] at hlib
          simp only at hlib
          subst hlib
          exact ⟨[], line, rest, rfl, hl, hb, rfl⟩
        | none =>
          simp only at h
          obtain ⟨earlier, bad, later, h1, h2, h3, h4⟩ := ih lib1 s e h
          refine ⟨line :: earlier, bad, later, by simp [h1], h2, h3, ?_⟩
          simp [loadMemberLines, hle, hb, h4]

theorem loadBookLine_books_ne_nil (lib lib1 : Library) (line : List Char)
    (h : loadBookLine lib line = (lib1, none)) : lib1.books ≠ [] := by
  rw [loadBookLine_fields] at h
  cases hs : stoi ((splitFields ',' line).headD []) with
  | error e => rw [hs] at h; simp at h
  | ok id =>
    rw [hs] at h
    simp only [Prod.mk.injEq, and_true] at h
    rw [← h]
    exact Map.emplace_ne_nil _ _ _

theorem loadMemberLine_members_ne_nil (lib lib1 : Library) (line : List Char)
    (h : loadMemberLine lib line = (lib1, none)) : lib1.members ≠ [] := by
  rw [loadMemberLine_fields] at h
  cases hs : stoi ((splitFields ',' line).headD []) with
  | error e => rw [hs] at h; simp at h
  | ok mid =>
    rw [hs] at h
    simp only at h
    cases hp : parseIds (readFields ((splitFields ',' line).drop 2)) with
    | error e => rw [hp] at h; simp at h
    | ok bs =>
      rw [hp] at h
      simp only [Prod.mk.injEq, and_true] at h
      rw [← h]
      exact Map.emplace_ne_nil _ _ _

theorem loadBookLines_books_nil_iff (lines : List (List Char)) :
    ∀ (lib s : Library), loadBookLines lines lib = (s, none) →
      (s.books = [] ↔ lib.books = [] ∧ ∀ l ∈ lines, l = []) := by
  induction lines with
  | nil =>
    intro lib s h
    simp only [loadBookLines, Prod.mk.injEq, and_true] at h
    subst h
    simp
  | cons line rest ih =>
    intro lib s h
    simp only [loadBookLines] at h
    by_cases hl : line = []
    · subst hl
      simp only [List.isEmpty_nil, if_true] at h
      simp [ih lib s h]
    · have hle : line.isEmpty = false := by cases line <;> simp_all
      simp only [hle, Bool.false_eq_true, if_false] at h
      cases hb : loadBookLine lib line with
      | mk lib1 r =>
        rw [hb] at h
        cases r with
        | some e1 => simp at h
        | none =>
          simp only at h
          have hne := loadBookLine_books_ne_nil lib lib1 line hb
          rw [ih lib1 s h]
          simp [hne, hl]

theorem loadMemberLines_members_nil_iff (lines : List (List Char)) :
    ∀ (lib s : Library), loadMemberLines lines lib = (s, none) →
      (s.members = [] ↔ lib.members = [] ∧ ∀ l ∈ lines, l = []) := by
  induction lines with
  | nil =>
    intro lib s h
    simp only [loadMemberLines, Prod.mk.injEq, and_true] at h
    subst h
    simp
  | cons line rest ih =>
    intro lib s h
    simp only [loadMemberLines] at h
    by_cases hl : line = []
    · subst hl
      simp only [List.isEmpty_nil, if_true] at h
      simp [ih lib s h]
    · have hle : line.isEmpty = false := by cases line <;> simp_all
      simp only [hle, Bool.false_eq_true, if_false] at h
      cases hb : loadMemberLine lib line with
      | mk lib1 r =>
        rw [hb] at h
        cases r with
        | some e1 => simp at h
        | none =>
          simp only at h
          have hne := loadMemberLine_members_ne_nil lib lib1 line hb
          rw [ih lib1 s h]
          simp [hne, hl]

theorem loadMemberLine_exn_indep (lib lib' : Library) (line : List Char) (e : Exn)
    (h : (loadMemberLine lib line).2 = some e) :
    loadMemberLine lib' line = (lib', some e) := by
  rw [loadMemberLine_fields] at h ⊢
  cases hs : stoi ((splitFields ',' line).headD []) with
  | error e1 =>
    rw [hs] at h
    simp only [Option.some.injEq] at h
    subst h
    rfl
  | ok mid =>
    rw [hs] at h
    simp only at h ⊢
    cases hp : parseIds (readFields ((splitFields ',' line).drop 2)) with
    | error e1 =>
      rw [hp] at h
      simp only [Option.some.injEq] at h
      subst h
      rfl
    | ok bs => rw [hp] at h; simp at h

theorem fileLines_no_newline (file : Option (List Char)) : ∀ l ∈ fileLines file, '\n' ∉ l := by
  cases file with
  | none => intro l hl; simp [fileLines] at hl
  | some text => exact splitFields_no_delim '\n' text

/-! ## Counters and returned ids in terms of the number of calls -/

theorem run_nextBookId (ops : List Op) :
    ∀ lib : Library, (Library.run lib ops).nextBookId = lib.nextBookId + countAddBook ops := by
  induction ops with
  | nil => intro lib; simp [Library.run, countAddBook]
  | cons op rest ih =>
    intro lib
    cases op with
    | addBook t a =>
      simp only [Library.run, countAddBook, ih, Library.step, Library.addBook]
      push_cast
      omega
    | addMember n =>
      simp only [Library.run, countAddBook, ih, Library.step, Library.addMember]
    | borrowBook m b =>
      simp only [Library.run, countAddBook, ih, Library.step, (borrowBook_counters lib m b).1]
    | returnBook m b =>
      simp only [Library.run, countAddBook, ih, Library.step, (returnBook_counters lib m b).1]

theorem run_nextMemberId (ops : List Op) :
    ∀ lib : Library,
      (Library.run lib ops).nextMemberId = lib.nextMemberId + countAddMember ops := by
  induction ops with
  | nil => intro lib; simp [Library.run, countAddMember]
  | cons op rest ih =>
    intro lib
    cases op with
    | addMember n =>
      simp only [Library.run, countAddMember, ih, Library.step, Library.addMember]
      push_cast
      omega
    | addBook t a =>
      simp only [Library.run, countAddMember, ih, Library.step, Library.addBook]
    | borrowBook m b =>
      simp only [Library.run, countAddMember, ih, Library.step, (borrowBook_counters lib m b).2]
    | returnBook m b =>
      simp only [Library.run, countAddMember, ih, Library.step, (returnBook_counters lib m b).2]

theorem trace_bookIds_lt (ops : List Op) :
    ∀ lib : Library, ∀ x ∈ bookIdsReturned (Library.trace lib ops),
      x < lib.nextBookId + countAddBook ops := by
  induction ops with
  | nil => intro lib x hx; simp [Library.trace, bookIdsReturned] at hx
  | cons op rest ih =>
    intro lib x hx
    cases op with
    | addBook t a =>
      simp only [Library.trace, Library.step, bookIdsReturned, List.mem_cons] at hx
      simp only [countAddBook]
      push_cast
      rcases hx with rfl | hx
      · simp only [Library.addBook]; omega
      · have := ih (lib.addBook t a).1 x hx
        simp only [Library.addBook] at this
        omega
    | addMember n =>
      simp only [Library.trace, Library.step, bookIdsReturned] at hx
      have := ih (lib.addMember n).1 x hx
      simpa [countAddBook, Library.addMember] using this
    | borrowBook m b =>
      simp only [Library.trace, Library.step, bookIdsReturned] at hx
      have := ih (lib.borrowBook m b).1 x hx
      rw [(borrowBook_counters lib m b).1] at this
      simpa [countAddBook] using this
    | returnBook m b =>
      simp only [Library.trace, Library.step, bookIdsReturned] at hx
      have := ih (lib.returnBook m b).1 x hx
      rw [(returnBook_counters lib m b).1] at this
      simpa [countAddBook] using this

theorem trace_memberIds_lt (ops : List Op) :
    ∀ lib : Library, ∀ x ∈ memberIdsReturned (Library.trace lib ops),
      x < lib.nextMemberId + countAddMember ops := by
  induction ops with
  | nil => intro lib x hx; simp [Library.trace, memberIdsReturned] at hx
  | cons op rest ih =>
    intro lib x hx
    cases op with
    | addMember n =>
      simp only [Library.trace, Library.step, memberIdsReturned, List.mem_cons] at hx
      simp only [countAddMember]
      push_cast
      rcases hx with rfl | hx
      · simp only [Library.addMember]; omega
      · have := ih (lib.addMember n).1 x hx
        simp only [Library.addMember] at this
        omega
    | addBook t a =>
      simp only [Library.trace, Library.step, memberIdsReturned] at hx
      have := ih (lib.addBook t a).1 x hx
      simpa [countAddMember, Library.addBook] using this
    | borrowBook m b =>
      simp only [Library.trace, Library.step, memberIdsReturned] at hx
      have := ih (lib.borrowBook m b).1 x hx
      rw [(borrowBook_counters lib m b).2] at this
      simpa [countAddMember] using this
    | returnBook m b =>
      simp only [Library.trace, Library.step, memberIdsReturned] at hx
      have := ih (lib.returnBook m b).1 x hx
      rw [(returnBook_counters lib m b).2] at this
      simpa [countAddMember] using this

theorem replicate_addBook_length (n : Nat) (t a : List Char) :
    ∀ lib : Library,
      (bookIdsReturned (Library.trace lib (List.replicate n (Op.addBook t a)))).length = n := by
  induction n with
  | zero => intro lib; rfl
  | succ n ih =>
    intro lib
    simp only [List.replicate, Library.trace, Library.step, bookIdsReturned, List.length_cons,
      ih]

theorem replicate_addBook_last (n : Nat) (t a : List Char) :
    ∀ lib : Library,
      (bookIdsReturned (Library.trace lib (List.replicate (n + 1) (Op.addBook t a)))).getLast?
        = some (lib.nextBookId + n) := by
  induction n with
  | zero => intro lib; simp [List.replicate, Library.trace, Library.step, bookIdsReturned, Library.addBook]
  | succ n ih =>
    intro lib
    have h := ih (lib.addBook t a).1
    have hlen := replicate_addBook_length (n + 1) t a (lib.addBook t a).1
    have hstep : bookIdsReturned (Library.trace lib (List.replicate (n + 1 + 1) (Op.addBook t a)))
        = (lib.addBook t a).2 ::
          bookIdsReturned (Library.trace (lib.addBook t a).1
            (List.replicate (n + 1) (Op.addBook t a))) := rfl
    rw [hstep]
    cases hL : bookIdsReturned (Library.trace (lib.addBook t a).1
        (List.replicate (n + 1) (Op.addBook t a))) with
    | nil => rw [hL] at hlen; simp at hlen
    | cons z zs =>
      rw [List.getLast?_cons_cons, ← hL, h]
      simp only [Library.addBook, Option.some.injEq]
      push_cast
      omega

theorem increasing_last_ge (ids : List Int) :
    ∀ a : Int, ids.Pairwise (· < ·) → (∀ x ∈ ids.head?, a ≤ x) →
      ∀ x ∈ ids.getLast?, a + ((ids.length : Int) - 1) ≤ x := by
  induction ids with
  | nil => intro a _ _ x hx; simp at hx
  | cons y rest ih =>
    intro a hp hh x hx
    have hy : a ≤ y := hh y (by simp)
    cases rest with
    | nil =>
      simp at hx
      subst hx
      simp
      exact hy
    | cons z rest2 =>
      rw [List.getLast?_cons_cons] at hx
      have hp' := List.pairwise_cons.mp hp
      have hz : y < z := hp'.1 z (List.mem_cons_self _ _)
      have := ih (a + 1) hp'.2 (by intro w hw; simp at hw; subst hw; omega) x hx
      simp only [List.length_cons] at this ⊢
      push_cast at this ⊢
      omega

/-! ## The claims -/

/-- C1 (fails on the code).  The relationship invariant does not hold in every
reachable store: after `addBook`, `addMember`, `addMember`,
`borrowBook(5000, 1000)` the invariant holds; the call `returnBook(5001, 1000)`
then throws "Member did not borrow this book." and leaves a reachable store in
which book 1000 is not flagged borrowed although member 5000 still lists it. -/
theorem relationshipInvariant_broken_by_failed_return :
    Reachable strayReturnState ∧
    RelationshipInvariant loanState ∧
    (Library.trace Library.new strayReturnOps).getLast? =
      some (Op.returnBook 5001 1000, Ret.threw Exn.memberDidNotBorrow) ∧
    (Map.find strayReturnState.books 1000).map Book.isBorrowed = some false ∧
    holders strayReturnState 1000 = 1 ∧
    ¬ RelationshipInvariant strayReturnState :=
  ⟨⟨strayReturnOps, rfl⟩, by decide, by decide, by decide, by decide, by decide⟩

/-- C2 (fails on the code).  `returnBook` is not atomic on failure: on the
reachable store `loanState` the call `returnBook(5001, 1000)` throws "Member
did not borrow this book." after `Book::returnBook` has cleared the flag of
book 1000, so the store after the failed call differs from the store before. -/
theorem returnBook_failure_clears_flag :
    Reachable loanState ∧
    (loanState.returnBook 5001 1000).2 = some Exn.memberDidNotBorrow ∧
    (Map.find loanState.books 1000).map Book.isBorrowed = some true ∧
    (Map.find (loanState.returnBook 5001 1000).1.books 1000).map Book.isBorrowed = some false ∧
    (loanState.returnBook 5001 1000).1 ≠ loanState :=
  ⟨⟨loanOps, rfl⟩, by decide, by decide, by decide, by decide⟩

/-- C3.  `borrowBook` is atomic on failure: whenever `borrowBook(memberId,
bookId)` throws, the store is exactly the store before the call, and the
exception is one of kind `NotFound` or `AlreadyBorrowed`. -/
theorem borrowBook_atomic_on_failure (lib : Library) (memberId bookId : Int) (e : Exn)
    (h : (lib.borrowBook memberId bookId).2 = some e) :
    (lib.borrowBook memberId bookId).1 = lib ∧
    (e.kind = ErrorKind.NotFound ∨ e.kind = ErrorKind.AlreadyBorrowed) := by
  unfold Library.borrowBook at h ⊢
  cases hm : Map.find lib.members memberId with
  | none =>
    simp only [hm, Option.some.injEq] at h ⊢
    subst h
    exact ⟨trivial, Or.inl rfl⟩
  | some mem =>
    cases hb : Map.find lib.books bookId with
    | none =>
      simp only [hm, hb, Option.some.injEq] at h ⊢
      subst h
      exact ⟨trivial, Or.inl rfl⟩
    | some bk =>
      cases hf : bk.isBorrowed with
      | false => simp [hm, hb, Book.borrowBook, hf] at h
      | true =>
        simp [hm, hb, Book.borrowBook, hf] at h ⊢
        subst h
        exact Or.inr rfl

/-- Witness for C3: on `loanState`, where book 1000 is already borrowed,
`borrowBook(5001, 1000)` throws and the store is unchanged. -/
theorem borrowBook_atomic_on_failure_witness :
    (loanState.borrowBook 5001 1000).2 = some Exn.bookAlreadyBorrowed ∧
    (loanState.borrowBook 5001 1000).1 = loanState ∧
    (Exn.bookAlreadyBorrowed.kind = ErrorKind.NotFound ∨
      Exn.bookAlreadyBorrowed.kind = ErrorKind.AlreadyBorrowed) :=
  ⟨by decide,
    borrowBook_atomic_on_failure loanState 5001 1000 Exn.bookAlreadyBorrowed (by decide)⟩

/-- C4.  Save/load round trip: for every store reachable through the public
operations in which no title, author or name contains a comma or a newline
(and whose integers are values of `int`), `saveData` writes both files, and
`loadData` on the two written texts, called on any store, returns normally
with a store that has the same book record under every book id and the same
member record, borrowed list in the same order, under every member id. -/
theorem save_load_round_trip (s prior : Library)
    (hr : ReachablePublic s) (hd : NoDelims s) (hi : FitsInt s) :
    ∃ booksText membersText s',
      s.saveData true true =
        { booksText := some booksText, membersText := some membersText, exn := none } ∧
      prior.loadData (some booksText) (some membersText) = (s', none) ∧
      (∀ id, Map.find s'.books id = Map.find s.books id) ∧
      (∀ id, Map.find s'.members id = Map.find s.members id) := by
  obtain ⟨s', hload, hb, hm⟩ := loadData_saved s prior (reachablePublic_keys s hr) hd hi
  exact ⟨writeBooks s.books, writeMembers s.members, s', rfl, hload, hb, hm⟩

/-- Witness for C4: the store `loanState` (one borrowed book, two members)
is reachable, has no comma or newline in its texts and only `int` values, and
is reproduced by `loadData` from what `saveData` wrote. -/
theorem save_load_round_trip_witness :
    ReachablePublic loanState ∧ NoDelims loanState ∧ FitsInt loanState ∧
    ∃ booksText membersText s',
      loanState.saveData true true =
        { booksText := some booksText, membersText := some membersText, exn := none } ∧
      Library.new.loadData (some booksText) (some membersText) = (s', none) ∧
      (∀ id, Map.find s'.books id = Map.find loanState.books id) ∧
      (∀ id, Map.find s'.members id = Map.find loanState.members id) :=
  ⟨reachable_public loanState ⟨loanOps, rfl⟩, by unfold NoDelims; decide,
    by unfold FitsInt; decide,
    save_load_round_trip loanState Library.new (reachable_public loanState ⟨loanOps, rfl⟩)
      (by unfold NoDelims; decide) (by unfold FitsInt; decide)⟩

/-- C5 (fails on the code).  The return postcondition does not hold in every
reachable store.  On the reachable store `strayReturnState`,
`borrowBook(5000, 1000)` succeeds and the book is flagged and listed; the
matching `returnBook(5000, 1000)` then succeeds and clears the flag, but 1000
still occurs in the borrowed list of member 5000. -/
theorem return_postcondition_broken_after_failed_return :
    Reachable strayReturnState ∧
    (strayReturnState.borrowBook 5000 1000).2 = none ∧
    (Map.find (strayReturnState.borrowBook 5000 1000).1.books 1000).map Book.isBorrowed
      = some true ∧
    (Map.find (strayReturnState.borrowBook 5000 1000).1.members 5000).map Member.borrowedBooks
      = some [1000, 1000] ∧
    ((strayReturnState.borrowBook 5000 1000).1.returnBook 5000 1000).2 = none ∧
    (Map.find ((strayReturnState.borrowBook 5000 1000).1.returnBook 5000 1000).1.books 1000).map
      Book.isBorrowed = some false ∧
    (Map.find ((strayReturnState.borrowBook 5000 1000).1.returnBook 5000 1000).1.members 5000).map
      Member.borrowedBooks = some [1000] :=
  ⟨⟨strayReturnOps, rfl⟩, by decide, by decide, by decide, by decide, by decide, by decide⟩

/-- C6.  The outcome of `returnBook` is the first applicable check in the
order: unknown member (`NotFound`), unknown book (`NotFound`), flag false
(`NotBorrowed`), id absent from the member's list (`NotBorrowedByMember`),
success; and it succeeds exactly when both records exist, the flag is true and
the id occurs in the member's list. -/
theorem returnBook_outcome (lib : Library) (memberId bookId : Int) :
    (lib.returnBook memberId bookId).2 = returnBookSpec lib memberId bookId ∧
    ((lib.returnBook memberId bookId).2 = none ↔
      ∃ m b, Map.find lib.members memberId = some m ∧ Map.find lib.books bookId = some b ∧
        b.isBorrowed = true ∧ bookId ∈ m.borrowedBooks) ∧
    Exn.memberNotFound.kind = ErrorKind.NotFound ∧
    Exn.bookNotFound.kind = ErrorKind.NotFound ∧
    Exn.bookWasNotBorrowed.kind = ErrorKind.NotBorrowed ∧
    Exn.memberDidNotBorrow.kind = ErrorKind.NotBorrowedByMember := by
  refine ⟨returnBook_exn lib memberId bookId, ?_, rfl, rfl, rfl, rfl⟩
  rw [returnBook_exn]
  unfold returnBookSpec
  cases hm : Map.find lib.members memberId with
  | none => simp
  | some mem =>
    cases hb : Map.find lib.books bookId with
    | none => simp
    | some bk =>
      cases hf : bk.isBorrowed with
      | false => simp [hf]
      | true => by_cases hin : bookId ∈ mem.borrowedBooks <;> simp [hf, hin]

/-- C7.  The outcome of `borrowBook` is the first applicable check in the
order: unknown member (`NotFound`, also when the book is unknown too), unknown
book (`NotFound`), flag true (`AlreadyBorrowed`), success; and it succeeds
exactly when both records exist and the flag is false. -/
theorem borrowBook_outcome (lib : Library) (memberId bookId : Int) :
    (lib.borrowBook memberId bookId).2 = borrowBookSpec lib memberId bookId ∧
    ((lib.borrowBook memberId bookId).2 = none ↔
      ∃ m b, Map.find lib.members memberId = some m ∧ Map.find lib.books bookId = some b ∧
        b.isBorrowed = false) ∧
    Exn.memberNotFound.kind = ErrorKind.NotFound ∧
    Exn.bookNotFound.kind = ErrorKind.NotFound ∧
    Exn.bookAlreadyBorrowed.kind = ErrorKind.AlreadyBorrowed := by
  refine ⟨borrowBook_exn lib memberId bookId, ?_, rfl, rfl, rfl⟩
  rw [borrowBook_exn]
  unfold borrowBookSpec
  cases hm : Map.find lib.members memberId with
  | none => simp
  | some mem =>
    cases hb : Map.find lib.books bookId with
    | none => simp
    | some bk => cases hf : bk.isBorrowed <;> simp [hf]

/-- C8.  A double borrow is rejected: if `borrowBook(m, b)` succeeds, the same
call issued on the resulting store throws "Book already borrowed.", of kind
`AlreadyBorrowed`. -/
theorem double_borrow_rejected (lib : Library) (m b : Int)
    (h : (lib.borrowBook m b).2 = none) :
    ((lib.borrowBook m b).1.borrowBook m b).2 = some Exn.bookAlreadyBorrowed ∧
    Exn.bookAlreadyBorrowed.kind = ErrorKind.AlreadyBorrowed := by
  refine ⟨?_, rfl⟩
  rw [borrowBook_exn _ m b]
  unfold Library.borrowBook at h ⊢
  cases hm : Map.find lib.members m with
  | none => simp [hm] at h
  | some mem =>
    cases hb : Map.find lib.books b with
    | none => simp [hm, hb] at h
    | some bk =>
      cases hf : bk.isBorrowed with
      | true => simp [hm, hb, Book.borrowBook, hf] at h
      | false =>
        simp [hm, hb, Book.borrowBook, hf, borrowBookSpec, Map.find_assign]

/-- Witness for C8: on `shelfState` the first `borrowBook(5000, 1000)`
succeeds and the second throws "Book already borrowed.". -/
theorem double_borrow_rejected_witness :
    (shelfState.borrowBook 5000 1000).2 = none ∧
    ((shelfState.borrowBook 5000 1000).1.borrowBook 5000 1000).2
      = some Exn.bookAlreadyBorrowed :=
  ⟨by decide, (double_borrow_rejected shelfState 5000 1000 (by decide)).1⟩

/-- C9.  A return without a borrow is rejected: after any sequence of calls on
a fresh `Library` in which no `borrowBook(m, b)` succeeded, if member `m` and
book `b` exist then `returnBook(m, b)` throws, with kind `NotBorrowed` or
`NotBorrowedByMember`. -/
theorem return_without_borrow_rejected (ops : List Op) (m b : Int)
    (hno : (Op.borrowBook m b, Ret.done) ∉ Library.trace Library.new ops)
    (hm : (Map.find (Library.run Library.new ops).members m).isSome = true)
    (hb : (Map.find (Library.run Library.new ops).books b).isSome = true) :
    ∃ e, ((Library.run Library.new ops).returnBook m b).2 = some e ∧
      (e.kind = ErrorKind.NotBorrowed ∨ e.kind = ErrorKind.NotBorrowedByMember) := by
  have hnot := run_keeps_not_held ops m b Library.new
    (by intro mem hmem; simp [Library.new, Map.find] at hmem) hno
  rw [returnBook_exn]
  unfold returnBookSpec
  cases hm' : Map.find (Library.run Library.new ops).members m with
  | none => simp [hm'] at hm
  | some mem =>
    cases hb' : Map.find (Library.run Library.new ops).books b with
    | none => simp [hb'] at hb
    | some bk =>
      cases hf : bk.isBorrowed with
      | false => exact ⟨Exn.bookWasNotBorrowed, by simp [hf], Or.inl rfl⟩
      | true => exact ⟨Exn.memberDidNotBorrow, by simp [hf, hnot mem hm'], Or.inr rfl⟩

/-- Witness for C9: after `loanOps` member 5001 never borrowed book 1000, and
`returnBook(5001, 1000)` throws. -/
theorem return_without_borrow_rejected_witness :
    (Op.borrowBook 5001 1000, Ret.done) ∉ Library.trace Library.new loanOps ∧
    ∃ e, ((Library.run Library.new loanOps).returnBook 5001 1000).2 = some e ∧
      (e.kind = ErrorKind.NotBorrowed ∨ e.kind = ErrorKind.NotBorrowedByMember) :=
  ⟨by decide,
    return_without_borrow_rejected loanOps 5001 1000 (by decide) (by decide) (by decide)⟩

/-- Counterexample to C10 as stated: the sequence `manyAddBooks` makes
`addBook` return 2147482649 ids, and no list of that many values of `int` is
strictly increasing with first element 1000: such a list ends at or above
2147483648, which exceeds `INT_MAX` (read on unbounded integers, the last id
is 2147483648). -/
theorem ids_exceed_int_after_many_adds :
    (bookIdsReturned (Library.trace Library.new manyAddBooks)).length = 2147482649 ∧
    (bookIdsReturned (Library.trace Library.new manyAddBooks)).getLast? = some 2147483648 ∧
    INT_MAX < 2147483648 ∧
    ¬ ∃ ids : List Int, ids.length = 2147482649 ∧ (∀ x ∈ ids, x ≤ INT_MAX) ∧
        ids.Pairwise (· < ·) ∧ (∀ x ∈ ids.head?, x = 1000) := by
  refine ⟨replicate_addBook_length 2147482649 [] [] Library.new, ?_, by decide, ?_⟩
  · exact replicate_addBook_last 2147482648 [] [] Library.new
  · rintro ⟨ids, hlen, hmax, hp, hh⟩
    cases hl : ids.getLast? with
    | none =>
      rw [List.getLast?_eq_none_iff] at hl
      rw [hl] at hlen
      simp at hlen
    | some x =>
      have hx := hmax x (List.mem_of_getLast?_eq_some hl)
      have := increasing_last_ge ids 1000 hp
        (fun y hy => by rw [hh y hy]) x (by rw [hl]; rfl)
      rw [hlen] at this
      simp only [INT_MAX] at hx
      push_cast at this
      omega

/-- C10 (amended).  Identifier allocation from a fresh store, within `int`:
for every sequence of `addBook`, `addMember`, `borrowBook` and `returnBook`
calls with at most 2147482647 `addBook` calls and at most 2147478647
`addMember` calls (so that neither counter is ever incremented past
`INT_MAX`), the ids returned by the `addBook` calls are strictly increasing,
the first is 1000 and all lie between 1000 and `INT_MAX`, and the ids returned
by the `addMember` calls are strictly increasing, the first is 5000 and all
lie between 5000 and `INT_MAX`, whatever the interleaving and the outcomes of
the borrow and return calls; both counters end at most at `INT_MAX`. -/
theorem fresh_ids_strictly_increasing (ops : List Op)
    (hb : countAddBook ops ≤ 2147482647) (hm : countAddMember ops ≤ 2147478647) :
    List.Pairwise (· < ·) (bookIdsReturned (Library.trace Library.new ops)) ∧
    (∀ x ∈ (bookIdsReturned (Library.trace Library.new ops)).head?, x = 1000) ∧
    (∀ x ∈ bookIdsReturned (Library.trace Library.new ops), 1000 ≤ x ∧ x < INT_MAX) ∧
    (Library.run Library.new ops).nextBookId ≤ INT_MAX ∧
    List.Pairwise (· < ·) (memberIdsReturned (Library.trace Library.new ops)) ∧
    (∀ x ∈ (memberIdsReturned (Library.trace Library.new ops)).head?, x = 5000) ∧
    (∀ x ∈ memberIdsReturned (Library.trace Library.new ops), 5000 ≤ x ∧ x < INT_MAX) ∧
    (Library.run Library.new ops).nextMemberId ≤ INT_MAX := by
  have hB := trace_bookIds ops Library.new
  have hM := trace_memberIds ops Library.new
  have hb' : (countAddBook ops : Int) ≤ 2147482647 := by exact_mod_cast hb
  have hm' : (countAddMember ops : Int) ≤ 2147478647 := by exact_mod_cast hm
  refine ⟨hB.1, hB.2.2, ?_, ?_, hM.1, hM.2.2, ?_, ?_⟩
  · intro x hx
    have h1 := hB.2.1 x hx
    have h2 := trace_bookIds_lt ops Library.new x hx
    simp only [Library.new, INT_MAX] at h1 h2 ⊢
    omega
  · rw [run_nextBookId]
    simp only [Library.new, INT_MAX]
    omega
  · intro x hx
    have h1 := hM.2.1 x hx
    have h2 := trace_memberIds_lt ops Library.new x hx
    simp only [Library.new, INT_MAX] at h1 h2 ⊢
    omega
  · rw [run_nextMemberId]
    simp only [Library.new, INT_MAX]
    omega

/-- Witness for C10: the sequence `loanOps` has one `addBook` call and two
`addMember` calls. -/
theorem fresh_ids_strictly_increasing_witness :
    countAddBook loanOps ≤ 2147482647 ∧ countAddMember loanOps ≤ 2147478647 ∧
    bookIdsReturned (Library.trace Library.new loanOps) = [1000] ∧
    memberIdsReturned (Library.trace Library.new loanOps) = [5000, 5001] ∧
    List.Pairwise (· < ·) (memberIdsReturned (Library.trace Library.new loanOps)) :=
  ⟨by decide, by decide, by decide, by decide,
    (fresh_ids_strictly_increasing loanOps (by decide) (by decide)).2.2.2.2.1⟩

/-- C18.  Exact effect of a successful `borrowBook(m, b)`: member `m` and book
`b` exist and the book was not borrowed; afterwards the record found under `b`
is the old one with the flag set (id, title, author unchanged), the record
found under `m` is the old one with `b` appended at the end of its list (id
and name unchanged), every other id maps to the record it mapped to before,
the book ids and the member ids of the store are the same, and both id
counters are unchanged. -/
theorem borrowBook_exact_effect (lib : Library) (m b : Int)
    (h : (lib.borrowBook m b).2 = none) :
    ∃ mem bk, Map.find lib.members m = some mem ∧ Map.find lib.books b = some bk ∧
      bk.isBorrowed = false ∧
      (lib.borrowBook m b).1 =
        { lib with
            books := Map.assign lib.books b { bk with isBorrowed := true }
            members := Map.assign lib.members m
              { mem with borrowedBooks := mem.borrowedBooks ++ [b] } } ∧
      (∀ id, Map.find (lib.borrowBook m b).1.books id =
        if id = b then some { bk with isBorrowed := true } else Map.find lib.books id) ∧
      (∀ id, Map.find (lib.borrowBook m b).1.members id =
        if id = m then some { mem with borrowedBooks := mem.borrowedBooks ++ [b] }
        else Map.find lib.members id) ∧
      (lib.borrowBook m b).1.books.map Prod.fst = lib.books.map Prod.fst ∧
      (lib.borrowBook m b).1.members.map Prod.fst = lib.members.map Prod.fst ∧
      (lib.borrowBook m b).1.nextBookId = lib.nextBookId ∧
      (lib.borrowBook m b).1.nextMemberId = lib.nextMemberId := by
  unfold Library.borrowBook at h ⊢
  cases hm : Map.find lib.members m with
  | none => simp [hm] at h
  | some mem =>
    cases hb : Map.find lib.books b with
    | none => simp [hm, hb] at h
    | some bk =>
      cases hf : bk.isBorrowed with
      | true => simp [hm, hb, Book.borrowBook, hf] at h
      | false =>
        refine ⟨mem, bk, rfl, rfl, hf, ?_, ?_, ?_, ?_, ?_, ?_, ?_⟩
        · simp [Book.borrowBook, hf, Member.borrowBook]
        · intro id
          by_cases hid : id = b
          · subst hid; simp [Book.borrowBook, hf, Map.find_assign, hb]
          · have : ¬ b = id := fun e => hid e.symm
            simp [Book.borrowBook, hf, Map.find_assign, hid, this]
        · intro id
          by_cases hid : id = m
          · subst hid; simp [Book.borrowBook, hf, Map.find_assign, hm, Member.borrowBook]
          · have : ¬ m = id := fun e => hid e.symm
            simp [Book.borrowBook, hf, Map.find_assign, hid, this]
        · simp [Book.borrowBook, hf, Map.keys_assign]
        · simp [Book.borrowBook, hf, Map.keys_assign]
        · simp [Book.borrowBook, hf]
        · simp [Book.borrowBook, hf]

/-- Witness for C18: on `shelfState`, `borrowBook(5000, 1000)` succeeds. -/
theorem borrowBook_exact_effect_witness :
    (shelfState.borrowBook 5000 1000).2 = none ∧
    ∃ mem bk, Map.find shelfState.members 5000 = some mem ∧
      Map.find shelfState.books 1000 = some bk ∧ bk.isBorrowed = false ∧
      (shelfState.borrowBook 5000 1000).1 =
        { shelfState with
            books := Map.assign shelfState.books 1000 { bk with isBorrowed := true }
            members := Map.assign shelfState.members 5000
              { mem with borrowedBooks := mem.borrowedBooks ++ [1000] } } :=
  ⟨by decide,
    (borrowBook_exact_effect shelfState 5000 1000 (by decide)).imp fun _ h1 =>
      h1.imp fun _ h2 => ⟨h2.1, h2.2.1, h2.2.2.1, h2.2.2.2.1⟩⟩

/-- C19.  Exact effect of a successful `returnBook(m, b)`: member `m` and book
`b` exist, the book was borrowed and `b` occurs in the member's list;
afterwards the record found under `b` is the old one with the flag cleared,
the record found under `m` is the old one whose list has lost only the first
occurrence of `b` (the entries before and after it are kept in order, later
occurrences included), every other id maps to the record it mapped to before,
the book ids and member ids of the store are the same, and both id counters
are unchanged. -/
theorem returnBook_exact_effect (lib : Library) (m b : Int)
    (h : (lib.returnBook m b).2 = none) :
    ∃ mem bk pre post, Map.find lib.members m = some mem ∧ Map.find lib.books b = some bk ∧
      bk.isBorrowed = true ∧
      mem.borrowedBooks = pre ++ b :: post ∧ b ∉ pre ∧
      (lib.returnBook m b).1 =
        { lib with
            books := Map.assign lib.books b { bk with isBorrowed := false }
            members := Map.assign lib.members m { mem with borrowedBooks := pre ++ post } } ∧
      (∀ id, Map.find (lib.returnBook m b).1.books id =
        if id = b then some { bk with isBorrowed := false } else Map.find lib.books id) ∧
      (∀ id, Map.find (lib.returnBook m b).1.members id =
        if id = m then some { mem with borrowedBooks := pre ++ post }
        else Map.find lib.members id) ∧
      (lib.returnBook m b).1.books.map Prod.fst = lib.books.map Prod.fst ∧
      (lib.returnBook m b).1.members.map Prod.fst = lib.members.map Prod.fst ∧
      (lib.returnBook m b).1.nextBookId = lib.nextBookId ∧
      (lib.returnBook m b).1.nextMemberId = lib.nextMemberId := by
  unfold Library.returnBook at h ⊢
  cases hm : Map.find lib.members m with
  | none => simp [hm] at h
  | some mem =>
    cases hb : Map.find lib.books b with
    | none => simp [hm, hb] at h
    | some bk =>
      cases hf : bk.isBorrowed with
      | false => simp [hm, hb, Book.returnBook, hf] at h
      | true =>
        cases he : eraseFirst b mem.borrowedBooks with
        | none => simp [hm, hb, Book.returnBook, hf, Member.returnBook, he] at h
        | some ys =>
          obtain ⟨pre, post, h1, h2, h3⟩ := eraseFirst_split b _ ys he
          subst h3
          refine ⟨mem, bk, pre, post, rfl, rfl, hf, h1, h2, ?_, ?_, ?_, ?_, ?_, ?_, ?_⟩
          · simp [Book.returnBook, hf, Member.returnBook, he]
          · intro id
            by_cases hid : id = b
            · subst hid
              simp [Book.returnBook, hf, Member.returnBook, he, Map.find_assign, hb]
            · have : ¬ b = id := fun e => hid e.symm
              simp [Book.returnBook, hf, Member.returnBook, he, Map.find_assign, hid, this]
          · intro id
            by_cases hid : id = m
            · subst hid
              simp [Book.returnBook, hf, Member.returnBook, he, Map.find_assign, hm]
            · have : ¬ m = id := fun e => hid e.symm
              simp [Book.returnBook, hf, Member.returnBook, he, Map.find_assign, hid, this]
          · simp [Book.returnBook, hf, Member.returnBook, he, Map.keys_assign]
          · simp [Book.returnBook, hf, Member.returnBook, he, Map.keys_assign]
          · simp [Book.returnBook, hf, Member.returnBook, he]
          · simp [Book.returnBook, hf, Member.returnBook, he]

/-- Witness for C19: on `doubleLoanState`, where member 5000 lists book 1000
twice, `returnBook(5000, 1000)` succeeds and one occurrence stays. -/
theorem returnBook_exact_effect_witness :
    (doubleLoanState.returnBook 5000 1000).2 = none ∧
    (Map.find doubleLoanState.members 5000).map Member.borrowedBooks = some [1000, 1000] ∧
    ∃ mem bk pre post, Map.find doubleLoanState.members 5000 = some mem ∧
      Map.find doubleLoanState.books 1000 = some bk ∧ bk.isBorrowed = true ∧
      mem.borrowedBooks = pre ++ 1000 :: post ∧ 1000 ∉ pre ∧
      (doubleLoanState.returnBook 5000 1000).1 =
        { doubleLoanState with
            books := Map.assign doubleLoanState.books 1000 { bk with isBorrowed := false }
            members := Map.assign doubleLoanState.members 5000
              { mem with borrowedBooks := pre ++ post } } :=
  ⟨by decide, by decide,
    (returnBook_exact_effect doubleLoanState 5000 1000 (by decide)).imp fun _ h1 =>
      h1.imp fun _ h2 => h2.imp fun _ h3 => h3.imp fun _ h4 =>
        ⟨h4.1, h4.2.1, h4.2.2.1, h4.2.2.2.1, h4.2.2.2.2.1, h4.2.2.2.2.2.1⟩⟩

/-- C11.  Id-counter invariant over all reachable stores, loads included: in
every store reachable from a fresh `Library` by `addBook`, `addMember`,
`borrowBook`, `returnBook` and `loadData` calls (failed ones included, any
file contents), the book counter is at least 1000 and strictly greater than
every book id of the store, the member counter is at least 5000 and strictly
greater than every member id; so `addBook` and `addMember` return an id under
which no record is stored and which no record carries, and append a new
record to the store. -/
theorem counters_ahead_of_ids (s : Library) (h : ReachablePublic s) :
    1000 ≤ s.nextBookId ∧
    (∀ kv ∈ s.books, kv.1 < s.nextBookId ∧ kv.2.id < s.nextBookId) ∧
    5000 ≤ s.nextMemberId ∧
    (∀ kv ∈ s.members, kv.1 < s.nextMemberId ∧ kv.2.memberId < s.nextMemberId) ∧
    (∀ title author,
      Map.find s.books (s.addBook title author).2 = none ∧
      (∀ kv ∈ s.books, kv.2.id ≠ (s.addBook title author).2) ∧
      (s.addBook title author).1.books =
        s.books ++ [((s.addBook title author).2,
          Book.new (s.addBook title author).2 title author)]) ∧
    (∀ name,
      Map.find s.members (s.addMember name).2 = none ∧
      (∀ kv ∈ s.members, kv.2.memberId ≠ (s.addMember name).2) ∧
      (s.addMember name).1.members =
        s.members ++ [((s.addMember name).2, Member.new (s.addMember name).2 name)]) := by
  obtain ⟨h1, h2, h3, h4⟩ := reachablePublic_ahead s h
  obtain ⟨k1, k2⟩ := reachablePublic_keys s h
  have hb : Map.find s.books s.nextBookId = none :=
    Map.find_none_of_keys _ _ (fun kv hkv => by have := h2 kv hkv; omega)
  have hm : Map.find s.members s.nextMemberId = none :=
    Map.find_none_of_keys _ _ (fun kv hkv => by have := h4 kv hkv; omega)
  refine ⟨h1, ?_, h3, ?_, ?_, ?_⟩
  · intro kv hkv
    exact ⟨h2 kv hkv, by rw [k1 kv hkv]; exact h2 kv hkv⟩
  · intro kv hkv
    exact ⟨h4 kv hkv, by rw [k2 kv hkv]; exact h4 kv hkv⟩
  · intro t a
    refine ⟨hb, ?_, ?_⟩
    · intro kv hkv
      have := h2 kv hkv
      rw [k1 kv hkv]
      simp only [Library.addBook]
      omega
    · simp only [Library.addBook]
      exact Map.emplace_of_find_none _ _ _ hb
  · intro n
    refine ⟨hm, ?_, ?_⟩
    · intro kv hkv
      have := h4 kv hkv
      rw [k2 kv hkv]
      simp only [Library.addMember]
      omega
    · simp only [Library.addMember]
      exact Map.emplace_of_find_none _ _ _ hm

/-- Witness for C11: the store `twoBooksState`, reached by a `loadData` call
on a fresh `Library`. -/
theorem counters_ahead_of_ids_witness :
    ReachablePublic twoBooksState ∧ 1000 ≤ twoBooksState.nextBookId ∧
    (∀ kv ∈ twoBooksState.books,
      kv.1 < twoBooksState.nextBookId ∧ kv.2.id < twoBooksState.nextBookId) :=
  ⟨⟨[Call.loadData (some twoBooksText) none], by decide⟩,
    (counters_ahead_of_ids twoBooksState
      ⟨[Call.loadData (some twoBooksText) none], by decide⟩).1,
    (counters_ahead_of_ids twoBooksState
      ⟨[Call.loadData (some twoBooksText) none], by decide⟩).2.1⟩

/-- C16.  Load replaces rather than merges: `loadData` on the same two files
has the same outcome and produces the same store (books, members and both
counters) from any two prior stores, hence the same as from a fresh
`Library`: nothing of the prior store survives unless the files describe
it. -/
theorem loadData_replaces (s1 s2 : Library) (booksFile membersFile : Option (List Char)) :
    s1.loadData booksFile membersFile = s2.loadData booksFile membersFile ∧
    s1.loadData booksFile membersFile = Library.new.loadData booksFile membersFile := by
  constructor <;> rw [loadData_eq_lines, loadData_eq_lines]

/-- Counterexample to C17 as stated: `loadData` with neither file openable
returns normally (no `IOError`), leaving an empty store. -/
theorem loadData_unopenable_returns :
    (shelfState.loadData none none).2 = none ∧
    (shelfState.loadData none none).1 = Library.new ∧
    (shelfState.loadData none (some [])).2 = none ∧
    (shelfState.loadData (some []) none).2 = none := by
  decide

/-- C17 (amended).  `saveData` throws an exception of kind `IOError` whenever
the books file or the members file does not open for writing, and returns
normally when both open.  `loadData` never throws an `IOError`: a file that
does not open for reading is skipped, with the same result as an empty file,
and every exception `loadData` throws is of kind `ParseError`. -/
theorem unopenable_files (lib : Library) :
    (∀ membersOpen, ∃ e, (lib.saveData false membersOpen).exn = some e ∧
      e.kind = ErrorKind.IOError) ∧
    (∃ e, (lib.saveData true false).exn = some e ∧ e.kind = ErrorKind.IOError) ∧
    (lib.saveData true true).exn = none ∧
    (∀ membersFile, lib.loadData none membersFile = lib.loadData (some []) membersFile) ∧
    (∀ booksFile, lib.loadData booksFile none = lib.loadData booksFile (some [])) ∧
    lib.loadData none none = (Library.new, none) ∧
    (∀ booksFile membersFile e, (lib.loadData booksFile membersFile).2 = some e →
      e.kind = ErrorKind.ParseError) := by
  refine ⟨fun mo => ⟨Exn.openBooksForWriting, rfl, rfl⟩,
    ⟨Exn.openMembersForWriting, rfl, rfl⟩, rfl, ?_, ?_, rfl, ?_⟩
  · intro mf
    rw [loadData_eq_lines, loadData_eq_lines]
    rfl
  · intro bf
    rw [loadData_eq_lines, loadData_eq_lines]
    rfl
  · exact fun bf mf e h => loadData_exn lib bf mf e h

/-- Counterexample to C12 as stated: the books file `1000,Dune` has one
non-blank line, with two comma-separated fields, and `loadData` returns
normally with book 1000 titled Dune, empty author, not borrowed. -/
theorem short_book_row_accepted :
    fileLines (some shortRowText) = [shortRowText] ∧
    (splitFields ',' shortRowText).length = 2 ∧
    Library.new.loadData (some shortRowText) (some []) =
      ({ books := [(1000, { id := 1000, title := "Dune".toList, author := [],
                            isBorrowed := false })],
         members := [], nextBookId := 1001, nextMemberId := 5000 }, none) := by
  decide

/-- C12 (amended).  A books line is never rejected for its field count.
`loadData` on a books file returns normally exactly when `std::stoi` accepts
the id field (the text before the first comma) of every non-blank line, and
every exception it throws is of kind `ParseError`; a line with fewer than 4
fields whose id field is accepted is loaded as a book with the missing fields
empty and the borrowed flag false. -/
theorem book_rows_rejected_by_id_only (prior : Library) (booksFile : Option (List Char)) :
    ((prior.loadData booksFile none).2 = none ↔
      ∀ line ∈ fileLines booksFile, line ≠ [] →
        ∃ id, stoi ((splitFields ',' line).headD []) = .ok id) ∧
    (∀ e, (prior.loadData booksFile none).2 = some e → e.kind = ErrorKind.ParseError) ∧
    (∀ (lib : Library) (line : List Char) (id : Int),
      (splitFields ',' line).length < 4 →
      stoi ((splitFields ',' line).headD []) = .ok id →
      loadBookLine lib line =
        ({ lib with
            books := Map.emplace lib.books id
              { id := id, title := (splitFields ',' line).getD 1 [],
                author := (splitFields ',' line).getD 2 [], isBorrowed := false }
            nextBookId := if id ≥ lib.nextBookId then id + 1 else lib.nextBookId },
          none)) := by
  refine ⟨?_, fun e h => loadData_exn prior booksFile none e h, ?_⟩
  · rw [loadData_eq_lines, ← loadBookLines_ok_iff (fileLines booksFile) Library.new]
    cases loadBookLines (fileLines booksFile) Library.new with
    | mk l r => cases r <;> simp [fileLines, loadMemberLines]
  · intro lib line id hshort hid
    have h3 : (splitFields ',' line).getD 3 [] = [] := by
      rw [List.getD_eq_default]
      omega
    rw [loadBookLine_fields, hid, h3]
    rfl

/-- Counterexample to C13 as stated: the book id field `12abc`, the member id
field `5000x`, the borrowed id field `1000abc` and the empty last field of the
members line are not, in their entirety, decimal integers, yet `loadData`
returns normally, reading them as 12, 5000, 1000 and nothing. -/
theorem id_with_trailing_text_accepted :
    Library.new.loadData (some trailingJunkBooksText) (some trailingJunkMembersText) =
      ({ books := [(12, { id := 12, title := "Dune".toList, author := "Herbert".toList,
                          isBorrowed := false })],
         members := [(5000, { memberId := 5000, name := "Alice".toList,
                              borrowedBooks := [1000] })],
         nextBookId := 1000, nextMemberId := 5001 }, none) ∧
    stoi "12abc".toList = .ok 12 :=
  ⟨by decide, rfl⟩

/-- C13 (amended).  Id fields that `std::stoi` rejects are rejected: if some
non-blank line of the books file has an id field (the text before its first
comma) on which `std::stoi` throws, or some non-blank line of the members file
has a member id field or a borrowed-book-id field read by the loop (every
field after the second, except an empty last one) on which `std::stoi` throws,
then `loadData` throws an exception of kind `ParseError`.  `std::stoi` throws
on a field with no decimal digit after optional white space and an optional
sign, and on a value outside `int`; it accepts a field that begins with an
integer. -/
theorem unparseable_id_field_rejected (prior : Library)
    (booksFile membersFile : Option (List Char))
    (h : (∃ line ∈ fileLines booksFile, line ≠ [] ∧
            ∃ e, stoi ((splitFields ',' line).headD []) = .error e) ∨
         (∃ line ∈ fileLines membersFile, line ≠ [] ∧
            ((∃ e, stoi ((splitFields ',' line).headD []) = .error e) ∨
             ∃ f ∈ readFields ((splitFields ',' line).drop 2), ∃ e, stoi f = .error e))) :
    ∃ e, (prior.loadData booksFile membersFile).2 = some e ∧
      e.kind = ErrorKind.ParseError := by
  have hkind := loadData_exn prior booksFile membersFile
  suffices hs : ∃ e, (prior.loadData booksFile membersFile).2 = some e by
    obtain ⟨e, he⟩ := hs
    exact ⟨e, he, hkind e he⟩
  rw [loadData_eq_lines]
  rcases h with ⟨line, hmem, hne, e, he⟩ | ⟨line, hmem, hne, hbad⟩
  · have hnot : ¬ (loadBookLines (fileLines booksFile) Library.new).2 = none := by
      rw [loadBookLines_ok_iff]
      intro hall
      obtain ⟨id, hid⟩ := hall line hmem hne
      rw [he] at hid
      cases hid
    cases hb : loadBookLines (fileLines booksFile) Library.new with
    | mk lib1 r =>
      rw [hb] at hnot
      cases r with
      | some e1 => exact ⟨e1, rfl⟩
      | none => exact absurd rfl hnot
  · cases hb : loadBookLines (fileLines booksFile) Library.new with
    | mk lib1 r =>
      cases r with
      | some e1 => exact ⟨e1, rfl⟩
      | none =>
        exact loadMemberLines_fails _ line hmem hne (loadMemberLine_fails line hbad) lib1

/-- Witness for C13: the books file `abc,Dune,Herbert,0` has an id field
without a digit, and `loadData` throws a `ParseError`. -/
theorem unparseable_id_field_rejected_witness :
    stoi "abc".toList = .error Exn.stoiInvalidArgument ∧
    stoi [] = .error Exn.stoiInvalidArgument ∧
    ∃ e, (Library.new.loadData (some badIdBooksText) none).2 = some e ∧
      e.kind = ErrorKind.ParseError :=
  ⟨rfl, rfl,
    unparseable_id_field_rejected Library.new (some badIdBooksText) none
      (Or.inl ⟨badIdBooksText, by decide, by decide, Exn.stoiInvalidArgument, rfl⟩)⟩

/-- Counterexample to C14 as stated: the members line `5000,Alice,99999999999`
has the stated form, but `std::stoi` throws on the borrowed id and no member
is loaded; and in the file `abc` / `5000,Alice,1000,1002` no earlier line
carries the id 5000, but `loadData` throws on the first line and member 5000
is not loaded. -/
theorem member_row_not_always_loaded :
    Library.new.loadData none (some overflowMemberText)
      = (Library.new, some Exn.stoiOutOfRange) ∧
    fileLines (some badFirstLineMembersText) = ["abc".toList, aliceRowText] ∧
    Library.new.loadData none (some badFirstLineMembersText)
      = (Library.new, some Exn.stoiInvalidArgument) ∧
    Map.find (Library.new.loadData none (some badFirstLineMembersText)).1.members 5000
      = none := by
  decide

/-- C14 (amended).  Member row parsing: let a line of the members file be
`id,name,b1,...,bn` (n ≥ 0) with `id` and every `bi` written as decimal
integers within the range of `int` and no comma in `name`.  If `loadData` on
the books file and the earlier lines of the members file alone returns
normally and leaves no member under `id`, then the store after `loadData` on
the whole files (whether or not a later line makes it throw) has under `id`
the member with that id, that name and the borrowed list `[b1, ..., bn]` in
that order; books need not exist for the listed ids. -/
theorem member_row_loaded (prior lib2 : Library) (booksFile : Option (List Char))
    (membersText : List Char) (earlier later : List (List Char)) (m : Member)
    (hlines : fileLines (some membersText) = earlier ++ memberFields m :: later)
    (hname : ',' ∉ m.name)
    (hid : INT_MIN ≤ m.memberId ∧ m.memberId ≤ INT_MAX)
    (hbs : ∀ b ∈ m.borrowedBooks, INT_MIN ≤ b ∧ b ≤ INT_MAX)
    (hearlier : prior.loadData booksFile (some (joinLines earlier)) = (lib2, none))
    (hnew : Map.find lib2.members m.memberId = none) :
    Map.find (prior.loadData booksFile (some membersText)).1.members m.memberId = some m := by
  have hnl : ∀ l ∈ earlier, '\n' ∉ l := by
    intro l hl
    apply splitFields_no_delim '\n' membersText
    show l ∈ fileLines (some membersText)
    rw [hlines]
    exact List.mem_append_left _ hl
  rw [loadData_eq_lines] at hearlier ⊢
  cases hb : loadBookLines (fileLines booksFile) Library.new with
  | mk lib1 r =>
    rw [hb] at hearlier
    cases r with
    | some e => simp at hearlier
    | none =>
      simp only [fileLines] at hearlier
      rw [splitFields_joinLines earlier hnl, loadMemberLines_blank_end] at hearlier
      simp only
      rw [hlines, loadMemberLines_append, hearlier]
      simp only [loadMemberLines, memberFields_isEmpty, Bool.false_eq_true, if_false,
        loadMemberLine_memberFields lib2 m hname hid hbs]
      apply loadMemberLines_find_mono
      simp [Map.find_emplace, hnew]

/-- Witness for C14: the members file `5000,Alice,1000,1002`, with no books
file at all, yields member 5000 named Alice with borrowed list
`[1000, 1002]`. -/
theorem member_row_loaded_witness :
    fileLines (some aliceRowText) = [] ++ memberFields aliceMember :: [] ∧
    Map.find (Library.new.loadData none (some aliceRowText)).1.members 5000
      = some aliceMember :=
  ⟨by decide,
    member_row_loaded Library.new Library.new none aliceRowText [] [] aliceMember
      (by decide) (by decide) (by decide) (by decide) (by decide) (by decide)⟩

/-- Counterexample to C20 as stated: with an empty books file and the members
file `abc`, `loadData` throws at the first line of the members file and the
store afterwards is empty, although the malformed line is not a line of the
books file (which has no non-blank line); the same happens when the books
file does not open. -/
theorem empty_after_failed_members_load :
    fileLines (some []) = [[]] ∧
    shelfState.loadData (some []) (some "abc".toList)
      = (Library.new, some Exn.stoiInvalidArgument) ∧
    shelfState.loadData none (some "abc".toList)
      = (Library.new, some Exn.stoiInvalidArgument) ∧
    Library.new.books = [] ∧ Library.new.members = [] := by
  decide

/-- C20 (amended).  The store after a failed load is a partial load.  When
`loadData` throws, the exception is a `ParseError` thrown at a non-blank line
`bad` that is malformed whatever the store, and the store afterwards is the
one `loadData` builds, from a fresh `Library`, out of the lines that precede
`bad` alone: either `bad` is a line of the books file and the store holds the
books of the earlier lines and no member, or the books file loaded entirely,
`bad` is a line of the members file and the store holds all books and the
members of the earlier lines; nothing of the prior store is left and the id
counters are those of that partial load.  So the store is empty after a
failed load exactly when no non-blank line precedes `bad`: `bad` is the first
non-blank line of the books file, or the books file has no non-blank line (or
does not open) and `bad` is the first non-blank line of the members file. -/
theorem failed_load_is_partial_load (prior s : Library)
    (booksFile membersFile : Option (List Char)) (e : Exn)
    (h : prior.loadData booksFile membersFile = (s, some e)) :
    e.kind = ErrorKind.ParseError ∧
    ((∃ earlier bad later,
        fileLines booksFile = earlier ++ bad :: later ∧ bad ≠ [] ∧
        (∀ lib, loadBookLine lib bad = (lib, some e)) ∧
        Library.new.loadData (some (joinLines earlier)) none = (s, none) ∧
        ((s.books = [] ∧ s.members = []) ↔ ∀ l ∈ earlier, l = [])) ∨
     (∃ earlier bad later,
        (prior.loadData booksFile none).2 = none ∧
        fileLines membersFile = earlier ++ bad :: later ∧ bad ≠ [] ∧
        (∀ lib, loadMemberLine lib bad = (lib, some e)) ∧
        Library.new.loadData booksFile (some (joinLines earlier)) = (s, none) ∧
        ((s.books = [] ∧ s.members = []) ↔
          (∀ l ∈ fileLines booksFile, l = []) ∧ ∀ l ∈ earlier, l = []))) := by
  refine ⟨loadData_exn prior booksFile membersFile e (by rw [h]), ?_⟩
  rw [loadData_eq_lines] at h
  cases hb : loadBookLines (fileLines booksFile) Library.new with
  | mk lib1 r =>
    rw [hb] at h
    cases r with
    | some e1 =>
      simp only [Prod.mk.injEq, Option.some.injEq] at h
      obtain ⟨rfl, rfl⟩ := h
      obtain ⟨earlier, bad, later, h1, h2, h3, h4⟩ :=
        loadBookLines_fail_split _ _ _ _ hb
      left
      have hnl : ∀ l ∈ earlier, '\n' ∉ l := fun l hl =>
        fileLines_no_newline booksFile l (by rw [h1]; exact List.mem_append_left _ hl)
      have hmem := (loadBookLines_members earlier Library.new).1
      rw [h4] at hmem
      have hnil := loadBookLines_books_nil_iff earlier Library.new lib1 h4
      refine ⟨earlier, bad, later, h1, h2, ?_, ?_, ?_⟩
      · intro lib
        exact loadBookLine_error lib bad e1
          ((loadBookLine_error_iff lib1 bad e1).mp (by rw [h3]))
      · rw [loadData_eq_lines]
        simp only [fileLines]
        rw [splitFields_joinLines earlier hnl, loadBookLines_blank_end, h4]
        rfl
      · rw [hnil]
        simp only at hmem
        simp [hmem, Library.new]
    | none =>
      simp only at h
      obtain ⟨earlier, bad, later, h1, h2, h3, h4⟩ :=
        loadMemberLines_fail_split _ _ _ _ h
      right
      have hnl : ∀ l ∈ earlier, '\n' ∉ l := fun l hl =>
        fileLines_no_newline membersFile l (by rw [h1]; exact List.mem_append_left _ hl)
      have hbooks := (loadMemberLines_books earlier lib1).1
      rw [h4] at hbooks
      have hmem1 := (loadBookLines_members (fileLines booksFile) Library.new).1
      rw [hb] at hmem1
      have hnilb := loadBookLines_books_nil_iff (fileLines booksFile) Library.new lib1 hb
      have hnilm := loadMemberLines_members_nil_iff earlier lib1 s h4
      refine ⟨earlier, bad, later, ?_, h1, h2, ?_, ?_, ?_⟩
      · rw [loadData_eq_lines, hb]
        rfl
      · intro lib
        exact loadMemberLine_exn_indep s lib bad e (by rw [h3])
      · rw [loadData_eq_lines, hb]
        simp only [fileLines]
        rw [splitFields_joinLines earlier hnl, loadMemberLines_blank_end, h4]
      · simp only at hbooks hmem1
        rw [hbooks, hnilb, hnilm, hmem1]
        simp [Library.new]

/-- Witness for C20: `loadData` on `twoBooksText` and a members file whose
second line is `abc` throws and leaves both books and the member of the first
line. -/
theorem failed_load_is_partial_load_witness :
    shelfState.loadData (some twoBooksText) (some badSecondLineMembersText)
      = (partialLoadState, some Exn.stoiInvalidArgument) ∧
    Exn.stoiInvalidArgument.kind = ErrorKind.ParseError :=
  ⟨by decide,
    (failed_load_is_partial_load shelfState partialLoadState (some twoBooksText)
      (some badSecondLineMembersText) Exn.stoiInvalidArgument (by decide)).1⟩

end LibrarySystem
